import Mathlib

/-!
Verification of the `snowygo` convention-checking analyzer (`analyzer.go`).

The Go source is shallowly embedded: each Go function or code block is
translated into an executable Lean definition over explicit data types.
Go's `*ast` nodes are modelled by inductive types carrying exactly the
fields the analyzer inspects; `go/ast`'s `Inspect` depth-first traversal
is modelled by flattening a file's syntax tree into the list of visited
nodes (restricted to the node kinds the analyzer's callback can react to;
other visited nodes are represented by an `otherN` marker).  Go map values
are modelled as insertion-ordered association lists.  A Go runtime panic
(nil-pointer dereference) is modelled by returning `none`.

Diagnostic messages: every `pass.Reportf(pos, format, args...)` call site
in the source is represented by one constructor of `Msg` carrying the
format arguments, so that counting diagnostics is decidable.
-/

/-- Character-list core of Go's `strings.Split(s, "/")`: splits into the
(always nonempty) list of segments between `'/'` separators. -/
def splitCharList : List Char → List String
  | [] => [""]
  | c :: cs =>
    let rest := splitCharList cs
    if c = '/' then "" :: rest
    else
      match rest with
      | [] => [String.mk [c]]
      | r :: rs => String.mk (c :: r.data) :: rs

/-- Go's `strings.Split(path, "/")`. -/
def goSplitSlash (path : String) : List String :=
  splitCharList path.data

/-- Go's `strings.HasPrefix`, over the underlying character lists. -/
def strStartsWith (s pre : String) : Bool :=
  pre.data.isPrefixOf s.data

/-- Go's `strings.HasSuffix`, over the underlying character lists. -/
def strEndsWith (s suf : String) : Bool :=
  suf.data.isSuffixOf s.data

/-- Go's `strings.TrimPrefix`. -/
def trimPre (s pre : String) : String :=
  if pre.data.isPrefixOf s.data then String.mk (s.data.drop pre.data.length) else s

/-- Go's `ast.Ident.IsExported` (`token.IsExported`): the first character of
the name is upper-case (ASCII suffices for the identifiers modelled here). -/
def isExportedName (s : String) : Bool :=
  match s.data with
  | [] => false
  | c :: _ => c.isUpper

/-- Function `splitPackagePath` from `analyzer.go`:
```
parts := strings.Split(path, "/")
if len(parts) < 2 { return "", parts }
if len(parts) == 2 { return parts[0], parts[1:] }
return parts[1], parts[2:]
``` -/
def splitPackagePath (path : String) : String × List String :=
  match goSplitSlash path with
  | [] => ("", [])
  | [p] => ("", [p])
  | [a, b] => (a, [b])
  | _ :: b :: rest => (b, rest)

/-- Function `getGroupFromPackagePath` from `analyzer.go`. -/
def getGroupFromPackagePath (path : String) : String :=
  (splitPackagePath path).1

/-- The group-name constants of `analyzer.go`. -/
def LibraryGroup : String := "lib"

/-- The `InternalGroup` constant. -/
def InternalGroup : String := "internal"

/-- The `CommandGroup` constant. -/
def CommandGroup : String := "cmd"

/-- The `ModelGroup` constant. -/
def ModelGroup : String := "model"

/-- The `GenGroup` constant. -/
def GenGroup : String := "gen"

/-- One constructor per `pass.Reportf` call site in `analyzer.go`, carrying
the format arguments.  The corresponding format strings are:
* `bannedPkgName s d`   — "should not use %s to package name, %s"
* `sameGroupSameDepth`  — "must not import from the same group, same depth"
* `noImportInternal`    — "must not import from internal package"
* `noImportCommand`     — "must not import from command package"
* `noImportLibrary`     — "must not import from library package"
* `rawGoroutine`        — "should not use raw goroutine, use goroutine pool instead"
* `exportedGlobal s`    — "global variable or local temparary value %s should not be exported or pascal case"
* `bannedImport p d`    — "should not use %s, %s"
* `missingCtxParam`     — "missing context.Context parameter"
* `ctxNotFirst`         — "context.Context should be the first parameter"
* `errNotLast`          — "error should be the last return value"
* `noElse`              — "if statement should not have an else branch, use early return or switch statement instead"
* `returnErr`           — "should not return error, use fmt.Errorf instead"
* `makeArgs`            — "make function should be called with 2 arguments"
* `missingFunc s`       — "missing %s function"
* `missingStruct s`     — "missing %s struct" -/
inductive Msg where
  | bannedPkgName (seg desc : String)
  | sameGroupSameDepth
  | noImportInternal
  | noImportCommand
  | noImportLibrary
  | rawGoroutine
  | exportedGlobal (name : String)
  | bannedImport (path desc : String)
  | missingCtxParam
  | ctxNotFirst
  | errNotLast
  | noElse
  | returnErr
  | makeArgs
  | missingFunc (name : String)
  | missingStruct (name : String)
  deriving DecidableEq, Repr

/-- A reported diagnostic (`pass.Reportf(pos, ...)`): position plus message. -/
structure Diag where
  pos : Nat
  msg : Msg
  deriving DecidableEq, Repr

/-- Number of diagnostics in `ds` with message `m`. -/
def countMsg (ds : List Diag) (m : Msg) : Nat :=
  (ds.filter (fun d => d.msg = m)).length

/-- Number of occurrences of the exact diagnostic `d` in `ds`. -/
def countDiag (ds : List Diag) (d : Diag) : Nat :=
  (ds.filter (fun d' => d' = d)).length

theorem countMsg_append (ds₁ ds₂ : List Diag) (m : Msg) :
    countMsg (ds₁ ++ ds₂) m = countMsg ds₁ m + countMsg ds₂ m := by
  simp [countMsg, List.filter_append]

theorem countDiag_append (ds₁ ds₂ : List Diag) (d : Diag) :
    countDiag (ds₁ ++ ds₂) d = countDiag ds₁ d + countDiag ds₂ d := by
  simp [countDiag, List.filter_append]

theorem countMsg_eq_zero_of_ne (ds : List Diag) (m : Msg)
    (h : ∀ d ∈ ds, d.msg ≠ m) : countMsg ds m = 0 := by
  induction ds with
  | nil => rfl
  | cons d ds ih =>
    have hd : d.msg ≠ m := h d (List.mem_cons_self d ds)
    have hrest : ∀ d' ∈ ds, d'.msg ≠ m := fun d' hmem => h d' (List.mem_cons_of_mem d hmem)
    have hstep : countMsg (d :: ds) m = countMsg ds m := by
      simp [countMsg, List.filter_cons, hd]
    rw [hstep, ih hrest]

/-- Association-list model of a Go `map[string]V`: lookup. -/
def lookupA {α : Type} (m : List (String × α)) (k : String) : Option α :=
  (m.find? (fun kv => kv.1 = k)).map (fun kv => kv.2)

/-- Association-list model of a Go `map[string]V`: insert / overwrite. -/
def insertA {α : Type} (m : List (String × α)) (k : String) (v : α) : List (String × α) :=
  match m with
  | [] => [(k, v)]
  | kv :: rest => if kv.1 = k then (k, v) :: rest else kv :: insertA rest k v

/-- Association-list model of a Go `map[string]V`: `delete`. -/
def eraseA {α : Type} (m : List (String × α)) (k : String) : List (String × α) :=
  m.filter (fun kv => kv.1 ≠ k)

/-- CLAIM C1: `splitPackagePath` returns, for a path splitting into fewer
than 2 segments, the empty group and all segments as remainder; for exactly
2 segments `[a, b]`, group `a` and remainder `[b]`; for 3 or more segments
`[a, b, c, ...]`, group `b` and remainder `[c, ...]`. -/
theorem claim1_splitPackagePath (path : String) :
    ((goSplitSlash path).length < 2 →
        splitPackagePath path = ("", goSplitSlash path)) ∧
    (∀ a b, goSplitSlash path = [a, b] →
        splitPackagePath path = (a, [b])) ∧
    (∀ a b c rest, goSplitSlash path = a :: b :: c :: rest →
        splitPackagePath path = (b, c :: rest)) := by
  refine ⟨?_, ?_, ?_⟩
  · intro h
    unfold splitPackagePath
    match hs : goSplitSlash path with
    | [] => rfl
    | [p] => rfl
    | a :: b :: rest =>
      rw [hs] at h
      simp only [List.length_cons] at h
      exact absurd h (by omega)
  · intro a b hs
    unfold splitPackagePath
    rw [hs]
  · intro a b c rest hs
    unfold splitPackagePath
    rw [hs]

/-- Witness for C1 at concrete inputs of all three shapes. -/
theorem claim1_witness :
    splitPackagePath "abc" = ("", ["abc"]) ∧
    splitPackagePath "lib/client" = ("lib", ["client"]) ∧
    splitPackagePath "example.com/cmd/app/sub" = ("cmd", ["app", "sub"]) := by
  refine ⟨?_, ?_, ?_⟩
  · exact (claim1_splitPackagePath "abc").1 (by decide)
  · exact (claim1_splitPackagePath "lib/client").2.1 "lib" "client" (by decide)
  · exact (claim1_splitPackagePath "example.com/cmd/app/sub").2.2
      "example.com" "cmd" "app" ["sub"] (by decide)

/-! ## Syntax-tree model

Inductive types carrying exactly the fields `runAnalyzer`'s callback reads.
`go/ast` invariants used: `FuncDecl.Type.Params` is never nil after parsing
(so it is a plain list), while `FuncDecl.Type.Results` and `FuncDecl.Body`
may be nil (`Option`).  Expression and statement lists are dedicated mutual
inductives (`ExprList`, `StmtList`) so that all recursion below is
structural. -/

mutual
/-- Model of `ast.Expr`, restricted to what the analyzer inspects:
identifiers, call expressions and other leaves. -/
inductive Expr where
  | identE (name : String) (pos : Nat)
  | callE (fn : Expr) (args : ExprList) (pos : Nat)
  | litE (pos : Nat)

/-- A `[]ast.Expr`. -/
inductive ExprList where
  | enil
  | econs (e : Expr) (rest : ExprList)
end

/-- An `*ast.ValueSpec`: declared names plus position. -/
structure ValueSpec where
  names : List String
  pos : Nat

/-- An `*ast.TypeSpec`: name, whether the declared type is a struct type,
and position. -/
structure TypeSpec where
  name : String
  isStruct : Bool
  pos : Nat

/-- An `*ast.ImportSpec`: the quoted path literal (`Path.Value`, including
the surrounding quote characters) plus position. -/
structure ImportSpec where
  pathValue : String
  pos : Nat

mutual
/-- Model of `ast.Stmt`, restricted to the shapes the analyzer reacts to;
nested declarations (`ast.DeclStmt` wrapping a var/type `GenDecl`) are
included because `ast.Inspect` visits them. -/
inductive Stmt where
  | ifStmt (pos : Nat) (body : StmtList) (els : ElseOpt)
  | blockStmt (pos : Nat) (stmts : StmtList)
  | goStmt (pos : Nat) (call : Expr)
  | returnStmt (pos : Nat) (results : ExprList)
  | exprStmt (e : Expr)
  | declVarStmt (pos : Nat) (specs : List ValueSpec)
  | declTypeStmt (pos : Nat) (specs : List TypeSpec)

/-- Model of `ast.IfStmt.Else`: nil, or an else statement (block or `else if`). -/
inductive ElseOpt where
  | noElse
  | someElse (s : Stmt)

/-- A `[]ast.Stmt`. -/
inductive StmtList where
  | snil
  | scons (s : Stmt) (rest : StmtList)
end

/-- An `*ast.Field` in a parameter list: its declared names. -/
structure Param where
  names : List String

/-- An `*ast.Field` in a result list: `some n` when its `Type` is an
`*ast.Ident` named `n`. -/
structure ResultField where
  typeIdentName : Option String

/-- An `*ast.FuncDecl`.  `params` models `Type.Params.List` (never nil in a
parsed file), `results` models `Type.Results` (nil or a list), `body`
models `Body` (nil for a declaration without a body). -/
structure FuncDecl where
  name : String
  pos : Nat
  params : List Param
  results : Option (List ResultField)
  body : Option StmtList

/-- A top-level `ast.Decl`: a var/type/import `GenDecl` or a `FuncDecl`. -/
inductive Decl where
  | genDeclVar (pos : Nat) (specs : List ValueSpec)
  | genDeclType (pos : Nat) (specs : List TypeSpec)
  | genDeclImport (pos : Nat) (specs : List ImportSpec)
  | funcDecl (fd : FuncDecl)

/-- The view of one visited node that the callback's type switch
dispatches on.  Visited nodes matching none of the switch cases
(`*ast.File`, block statements, if statements, identifiers, specs, ...)
are collapsed to `otherN` with their position. -/
inductive VNode where
  | goStmtN (pos : Nat)
  | genDeclVarN (pos : Nat) (specs : List ValueSpec)
  | genDeclTypeN (pos : Nat) (specs : List TypeSpec)
  | importSpecN (spec : ImportSpec)
  | funcDeclN (fd : FuncDecl)
  | returnStmtN (pos : Nat) (results : ExprList)
  | callExprN (fn : Expr) (args : ExprList) (pos : Nat)
  | otherN (pos : Nat)

/-- The position (`node.Pos()`) of a visited node. -/
def VNode.nodePos : VNode → Nat
  | .goStmtN p => p
  | .genDeclVarN p _ => p
  | .genDeclTypeN p _ => p
  | .importSpecN spec => spec.pos
  | .funcDeclN fd => fd.pos
  | .returnStmtN p _ => p
  | .callExprN _ _ p => p
  | .otherN p => p

mutual
/-- Depth-first visit order of `ast.Inspect` on an expression. -/
def visitExpr : Expr → List VNode
  | .identE _ p => [.otherN p]
  | .callE fn args p => .callExprN fn args p :: (visitExpr fn ++ visitExprList args)
  | .litE p => [.otherN p]

/-- Depth-first visit order on an expression list. -/
def visitExprList : ExprList → List VNode
  | .enil => []
  | .econs e rest => visitExpr e ++ visitExprList rest
end

mutual
/-- Depth-first visit order of `ast.Inspect` on a statement. -/
def visitStmt : Stmt → List VNode
  | .ifStmt p body els => .otherN p :: (visitStmtList body ++ visitElse els)
  | .blockStmt p ss => .otherN p :: visitStmtList ss
  | .goStmt p call => .goStmtN p :: visitExpr call
  | .returnStmt p results => .returnStmtN p results :: visitExprList results
  | .exprStmt e => visitExpr e
  | .declVarStmt p specs =>
      .otherN p :: .genDeclVarN p specs :: specs.map (fun s => VNode.otherN s.pos)
  | .declTypeStmt p specs =>
      .otherN p :: .genDeclTypeN p specs :: specs.map (fun s => VNode.otherN s.pos)

/-- Depth-first visit order on an `Else` branch. -/
def visitElse : ElseOpt → List VNode
  | .noElse => []
  | .someElse s => visitStmt s

/-- Depth-first visit order on a statement list. -/
def visitStmtList : StmtList → List VNode
  | .snil => []
  | .scons s rest => visitStmt s ++ visitStmtList rest
end

/-- Depth-first visit order on a top-level declaration. -/
def visitDecl : Decl → List VNode
  | .genDeclVar p specs => .genDeclVarN p specs :: specs.map (fun s => VNode.otherN s.pos)
  | .genDeclType p specs => .genDeclTypeN p specs :: specs.map (fun s => VNode.otherN s.pos)
  | .genDeclImport p specs => .otherN p :: specs.map VNode.importSpecN
  | .funcDecl fd =>
      .funcDeclN fd ::
        (match fd.body with
         | some sl => visitStmtList sl
         | none => [])

/-- An `*ast.File`: its package-name identifier (`f.Name.Name`), position,
collected import specs (`f.Imports`) and top-level declarations. -/
structure File where
  name : String
  pos : Nat
  imports : List ImportSpec
  decls : List Decl

/-- Depth-first visit order of `ast.Inspect(f, ...)`: the `*ast.File` node
itself followed by its declarations. -/
def visitFile (f : File) : List VNode :=
  VNode.otherN f.pos :: f.decls.flatMap visitDecl

/-- An `*analysis.Pass`: the package path (`pass.Pkg.Path()`) and the
parsed files. -/
structure Pass where
  pkgPath : String
  files : List File

/-- Type `Reporter` from `analyzer.go`: the captured `pass.Reportf` plus a
position; the function component is always `pass.Reportf`, so only the
position is modelled. -/
structure Reporter where
  pos : Nat
  deriving DecidableEq, Repr

/-- Type `PairElement` from `analyzer.go`. -/
structure PairElement where
  name : String
  reporter : Reporter
  deriving DecidableEq, Repr

/-- Type `Pair` from `analyzer.go`. -/
structure Pair where
  first : Option PairElement
  second : Option PairElement
  deriving DecidableEq, Repr

/-- The mutable per-run state of `runAnalyzer`'s closure: the three maps
plus the diagnostics reported so far (in emission order). -/
structure AState where
  a2b : List (String × Pair)
  errorStructMap : List (String × Reporter)
  errorCheckerMap : List (String × Reporter)
  diags : List Diag

/-- The `bannedPackageNames` table. -/
def bannedPackageNames : List (String × String) :=
  [("util", "use a more descriptive package name")]

/-- The `bannedImportPaths` table. -/
def bannedImportPaths : List (String × String) :=
  [("github.com/pkg/errors", "use fmt.Errorf and errors instead"),
   ("io/ioutil", "use os or package io instead")]

/-- The "check package path" block at the top of the callback: if the last
segment of the file's package path is a banned package name, report at the
current node's position. -/
def pkgNameDiags (pkgPath : String) (npos : Nat) : List Diag :=
  match ((splitPackagePath pkgPath).2).getLast? with
  | none => []
  | some lastSeg =>
    match lookupA bannedPackageNames lastSeg with
    | none => []
    | some desc => [⟨npos, .bannedPkgName lastSeg desc⟩]

/-- The same-group-same-depth check of the import loop.  The import is
classified from the quoted literal `imp.Path.Value`. -/
def sameDepthDiags1 (group : String) (parts : List String) (imp : ImportSpec) : List Diag :=
  if group = (splitPackagePath imp.pathValue).1 ∧
      parts.length = (splitPackagePath imp.pathValue).2.length then
    [⟨imp.pos, .sameGroupSameDepth⟩]
  else []

/-- The group legality switch of the import loop (`switch group { ... }`
with the `Model`/`Gen` fallthrough). -/
def legalityDiags1 (group : String) (imp : ImportSpec) : List Diag :=
  let impGroup := (splitPackagePath imp.pathValue).1
  if group = LibraryGroup then
    if impGroup = InternalGroup then [⟨imp.pos, .noImportInternal⟩]
    else if impGroup = CommandGroup then [⟨imp.pos, .noImportCommand⟩]
    else []
  else if group = InternalGroup then
    if impGroup = CommandGroup then [⟨imp.pos, .noImportCommand⟩]
    else []
  else if group = ModelGroup ∨ group = GenGroup then
    if impGroup = CommandGroup then [⟨imp.pos, .noImportCommand⟩]
    else if impGroup = InternalGroup then [⟨imp.pos, .noImportInternal⟩]
    else if impGroup = LibraryGroup then [⟨imp.pos, .noImportLibrary⟩]
    else []
  else []

/-- The per-import body of the callback's `for _, imp := range f.Imports`
loop: the same-group-same-depth check followed by the group legality
switch. -/
def importDiags1 (group : String) (parts : List String) (imp : ImportSpec) : List Diag :=
  sameDepthDiags1 group parts imp ++ legalityDiags1 group imp

/-- The whole import loop of one callback invocation. -/
def importLoopDiags (pkgPath : String) (imports : List ImportSpec) : List Diag :=
  imports.flatMap
    (importDiags1 (splitPackagePath pkgPath).1 (splitPackagePath pkgPath).2)

/-- Model of `strconv.Unquote` restricted to escape-free double-quoted literals
(the only shape occurring in import declarations modelled here). -/
def unquoteLit (s : String) : Option String :=
  match s.data with
  | '"' :: rest =>
      if rest.getLast? = some '"' then some (String.mk rest.dropLast) else none
  | _ => none

/-- The `*ast.ImportSpec` case of the type switch: unquote the path
literal and look it up in `bannedImportPaths`. -/
def bannedImportDiags (spec : ImportSpec) : List Diag :=
  match unquoteLit spec.pathValue with
  | none => []
  | some path =>
    match lookupA bannedImportPaths path with
    | none => []
    | some desc => [⟨spec.pos, .bannedImport path desc⟩]

/-- The `token.VAR` branch of the `*ast.GenDecl` case: flag every value
spec whose first declared name is exported. -/
def exportedVarDiags (specs : List ValueSpec) : List Diag :=
  specs.flatMap (fun vs =>
    match vs.names.head? with
    | some n => if isExportedName n then [⟨vs.pos, .exportedGlobal n⟩] else []
    | none => [])

/-- The `token.TYPE` branch of the `*ast.GenDecl` case: record every
exported struct type whose name ends in "Error". -/
def recordErrorStructs (specs : List TypeSpec)
    (m : List (String × Reporter)) : List (String × Reporter) :=
  specs.foldl (fun m ts =>
    if ts.isStruct && isExportedName ts.name && strEndsWith ts.name "Error" then
      insertA m ts.name ⟨ts.pos⟩
    else m) m

/-- Is the function name an `Is...Error` checker name? -/
def isCheckerName (n : String) : Bool :=
  strStartsWith n "Is" && strEndsWith n "Error"

/-- Index of the first parameter whose first declared name is `ctx`
(the loops in the source break at the first such parameter). -/
def ctxIndex (params : List Param) : Option Nat :=
  params.findIdx? (fun p => p.names.head? = some "ctx")

/-- The `New`-constructor branch: report when no parameter is named `ctx`. -/
def funcNameDiags (fd : FuncDecl) : List Diag :=
  if isCheckerName fd.name then []
  else if strStartsWith fd.name "New" then
    if (ctxIndex fd.params).isSome then [] else [⟨fd.pos, .missingCtxParam⟩]
  else []

/-- The context-parameter-position check (runs for every function
declaration; `Type.Params` is never nil in a parsed file, so the source's
nil guard is vacuous). -/
def ctxPosDiags (fd : FuncDecl) : List Diag :=
  match ctxIndex fd.params with
  | some i => if i ≠ 0 then [⟨fd.pos, .ctxNotFirst⟩] else []
  | none => []

/-- The error-result-position check. -/
def errPosDiags (fd : FuncDecl) : List Diag :=
  match fd.results with
  | none => []
  | some rs =>
    let hasErr : Bool := rs.any (fun r => r.typeIdentName = some "error")
    let isErrLast : Bool :=
      match rs.getLast? with
      | some r => r.typeIdentName = some "error"
      | none => false
    if hasErr && !isErrLast then [⟨fd.pos, .errNotLast⟩] else []

/-- The body scan: flag each statement of the body's top-level list that
is an if statement with an else branch. -/
def noElseDiags : StmtList → List Diag
  | .snil => []
  | .scons s rest =>
    (match s with
     | .ifStmt p _ (.someElse _) => [⟨p, .noElse⟩]
     | _ => []) ++ noElseDiags rest

/-- The verb-pair registration of the `default:` branch of the function
name switch: successively trim the six recognized verbs, key by
`f.Name.Name + "." + trimmedName`, and populate the pair half selected by
the (untrimmed) name's verb. -/
def pairRegister (fileName : String) (fd : FuncDecl)
    (a2b : List (String × Pair)) : List (String × Pair) :=
  let t := trimPre fd.name "Request"
  let t := trimPre t "Reply"
  let t := trimPre t "Send"
  let t := trimPre t "Receive"
  let t := trimPre t "Publish"
  let t := trimPre t "Subscribe"
  let key := fileName ++ "." ++ t
  let p := (lookupA a2b key).getD ⟨none, none⟩
  let p :=
    if strStartsWith fd.name "Request" then { p with first := some ⟨"Request", ⟨fd.pos⟩⟩ }
    else if strStartsWith fd.name "Reply" then { p with second := some ⟨"Reply", ⟨fd.pos⟩⟩ }
    else if strStartsWith fd.name "Send" then { p with first := some ⟨"Send", ⟨fd.pos⟩⟩ }
    else if strStartsWith fd.name "Receive" then { p with second := some ⟨"Receive", ⟨fd.pos⟩⟩ }
    else if strStartsWith fd.name "Publish" then { p with first := some ⟨"Publish", ⟨fd.pos⟩⟩ }
    else if strStartsWith fd.name "Subscribe" then { p with second := some ⟨"Subscribe", ⟨fd.pos⟩⟩ }
    else p
  insertA a2b key p

/-- Registry effects of the `*ast.FuncDecl` case's name switch: record an
`Is...Error` checker (first occurrence only), or register a verb pair via
the default branch; `New`-functions touch no registry. -/
def funcDeclRegistry (fileName : String) (fd : FuncDecl) (st : AState) : AState :=
  if isCheckerName fd.name then
    if (lookupA st.errorCheckerMap fd.name).isSome then st
    else { st with errorCheckerMap := insertA st.errorCheckerMap fd.name ⟨fd.pos⟩ }
  else if strStartsWith fd.name "New" then st
  else { st with a2b := pairRegister fileName fd st.a2b }

/-- The `*ast.FuncDecl` case of the type switch.  When `Body` is nil the
source dereferences `node.Body.List` and panics (nil-pointer
dereference), modelled as `none`: the analysis run aborts. -/
def handleFuncDecl (fileName : String) (fd : FuncDecl) (st : AState) : Option AState :=
  match fd.body with
  | none => none
  | some stmts =>
    let st := funcDeclRegistry fileName fd st
    some { st with
      diags := st.diags ++ funcNameDiags fd ++ ctxPosDiags fd ++ errPosDiags fd
        ++ noElseDiags stmts }

/-- The `*ast.ReturnStmt` case: flag each returned bare identifier
literally named `err` (at the return statement's position). -/
def returnErrDiags (p : Nat) : ExprList → List Diag
  | .enil => []
  | .econs e rest =>
    (match e with
     | .identE "err" _ => [⟨p, .returnErr⟩]
     | _ => []) ++ returnErrDiags p rest

/-- Length of a `[]ast.Expr`. -/
def ExprList.elen : ExprList → Nat
  | .enil => 0
  | .econs _ rest => 1 + rest.elen

/-- The `*ast.CallExpr` case: flag a call to the identifier `make` with
fewer than 2 arguments. -/
def makeCallDiags (fn : Expr) (args : ExprList) (p : Nat) : List Diag :=
  match fn with
  | .identE "make" _ => if args.elen < 2 then [⟨p, .makeArgs⟩] else []
  | _ => []

/-- One invocation of the `ast.Inspect` callback on one visited node:
the package-path check and the import loop always run; then the type
switch dispatches on the node kind. -/
def inspectNode (pkgPath fileName : String) (imports : List ImportSpec)
    (n : VNode) (st : AState) : Option AState :=
  let st := { st with
    diags := st.diags ++ pkgNameDiags pkgPath n.nodePos ++ importLoopDiags pkgPath imports }
  match n with
  | .goStmtN p => some { st with diags := st.diags ++ [⟨p, .rawGoroutine⟩] }
  | .genDeclVarN _ specs => some { st with diags := st.diags ++ exportedVarDiags specs }
  | .genDeclTypeN _ specs =>
      some { st with errorStructMap := recordErrorStructs specs st.errorStructMap }
  | .importSpecN spec => some { st with diags := st.diags ++ bannedImportDiags spec }
  | .funcDeclN fd => handleFuncDecl fileName fd st
  | .returnStmtN p results => some { st with diags := st.diags ++ returnErrDiags p results }
  | .callExprN fn args p => some { st with diags := st.diags ++ makeCallDiags fn args p }
  | .otherN _ => some st

/-- Run the callback over a list of visited nodes in order, aborting on a
panic. -/
def foldNodes (pkgPath fileName : String) (imports : List ImportSpec) :
    List VNode → AState → Option AState
  | [], st => some st
  | n :: rest, st =>
    match inspectNode pkgPath fileName imports n st with
    | none => none
    | some st' => foldNodes pkgPath fileName imports rest st'

/-- Run of `ast.Inspect(f, callback)` for one file. -/
def runFile (pkgPath : String) (f : File) (st : AState) : Option AState :=
  foldNodes pkgPath f.name f.imports (visitFile f) st

/-- The `for _, f := range pass.Files` loop. -/
def runFiles (pkgPath : String) : List File → AState → Option AState
  | [], st => some st
  | f :: rest, st =>
    match runFile pkgPath f st with
    | none => none
    | some st' => runFiles pkgPath rest st'

/-- First reconciliation loop: for every recorded error struct `e`, report
"missing Is<e> function" when no checker named `Is`+`e` was recorded, and
unconditionally delete `Is`+`e` from the checker map. -/
def reconcileStructs : List (String × Reporter) → List (String × Reporter) →
    List Diag × List (String × Reporter)
  | [], checkers => ([], checkers)
  | (e, rep) :: rest, checkers =>
    let c := "Is" ++ e
    let ds :=
      if (lookupA checkers c).isSome then []
      else [⟨rep.pos, Msg.missingFunc c⟩]
    let pr := reconcileStructs rest (eraseA checkers c)
    (ds ++ pr.1, pr.2)

/-- Second reconciliation loop: for every checker `c` left in the map,
report "missing <name> struct" when its implied struct name (the name
with the `Is` prefix stripped) was never recorded. -/
def reconcileCheckers (structs : List (String × Reporter)) :
    List (String × Reporter) → List Diag
  | [] => []
  | (c, rep) :: rest =>
    let e := trimPre c "Is"
    (if (lookupA structs e).isSome then []
     else [⟨rep.pos, Msg.missingStruct e⟩]) ++ reconcileCheckers structs rest

/-- Both error-contract reconciliation loops of `runAnalyzer`. -/
def reconcileErrors (st : AState) : AState :=
  let pr := reconcileStructs st.errorStructMap st.errorCheckerMap
  { st with
    diags := st.diags ++ pr.1 ++ reconcileCheckers st.errorStructMap pr.2,
    errorCheckerMap := pr.2 }

/-- The opposite-verb switch for a populated first half. -/
def oppositeOfFirst : String → String
  | "Request" => "Reply"
  | "Send" => "Receive"
  | "Publish" => "Subscribe"
  | "Set" => "Get"
  | _ => "unknown"

/-- The opposite-verb switch for a populated second half. -/
def oppositeOfSecond : String → String
  | "Reply" => "Request"
  | "Receive" => "Send"
  | "Subscribe" => "Publish"
  | "Get" => "Set"
  | _ => "unknown"

/-- The operation-pair reconciliation loop: for every pair with exactly
one half populated, report "missing <opposite> function" at the present
half's position. -/
def reconcilePairList : List (String × Pair) → List Diag
  | [] => []
  | (_, p) :: rest =>
    (match p.first, p.second with
     | some fe, none => [⟨fe.reporter.pos, Msg.missingFunc (oppositeOfFirst fe.name)⟩]
     | none, some se => [⟨se.reporter.pos, Msg.missingFunc (oppositeOfSecond se.name)⟩]
     | _, _ => []) ++ reconcilePairList rest

/-- Operation-pair reconciliation on the analyzer state. -/
def reconcilePairs (st : AState) : AState :=
  { st with diags := st.diags ++ reconcilePairList st.a2b }

/-- The initial (empty) analyzer state. -/
def initState : AState := ⟨[], [], [], []⟩

/-- Function `runAnalyzer` from `analyzer.go`: traverse every file of the pass,
then reconcile the error-contract and operation-pair registries.  `none`
models a run aborted by a panic; `some ds` models normal completion with
the diagnostics `ds` reported in order. -/
def runAnalyzer (pass : Pass) : Option (List Diag) :=
  match runFiles pass.pkgPath pass.files initState with
  | none => none
  | some st => some (reconcilePairs (reconcileErrors st)).diags

/-! ## Decomposition of the diagnostic stream

`inspectNode`'s appended diagnostics do not depend on the incoming state,
only on the node and the file context.  `nodeAll` names that contribution
(the diagnostics of one callback invocation started from the empty
state), and the lemmas below decompose a whole run into per-node
contributions plus the reconciliation extras. -/

/-- Diagnostics contributed by one callback invocation. -/
def nodeAll (pk fn : String) (imps : List ImportSpec) (n : VNode) : List Diag :=
  match inspectNode pk fn imps n initState with
  | some st => st.diags
  | none => []

theorem funcDeclRegistry_diags (fn : String) (fd : FuncDecl) (st : AState) :
    (funcDeclRegistry fn fd st).diags = st.diags := by
  unfold funcDeclRegistry
  split_ifs <;> rfl

theorem inspectNode_some_diags (pk fn : String) (imps : List ImportSpec) (n : VNode)
    (st st' : AState) (h : inspectNode pk fn imps n st = some st') :
    st'.diags = st.diags ++ nodeAll pk fn imps n := by
  cases n with
  | goStmtN p =>
    simp only [inspectNode, Option.some.injEq] at h
    subst h
    simp [nodeAll, inspectNode, initState]
  | genDeclVarN p specs =>
    simp only [inspectNode, Option.some.injEq] at h
    subst h
    simp [nodeAll, inspectNode, initState]
  | genDeclTypeN p specs =>
    simp only [inspectNode, Option.some.injEq] at h
    subst h
    simp [nodeAll, inspectNode, initState]
  | importSpecN spec =>
    simp only [inspectNode, Option.some.injEq] at h
    subst h
    simp [nodeAll, inspectNode, initState]
  | funcDeclN fd =>
    cases hb : fd.body with
    | none => simp [inspectNode, handleFuncDecl, hb] at h
    | some sl =>
      simp only [inspectNode, handleFuncDecl, hb, Option.some.injEq] at h
      subst h
      simp [nodeAll, inspectNode, handleFuncDecl, hb, funcDeclRegistry_diags, initState]
  | returnStmtN p results =>
    simp only [inspectNode, Option.some.injEq] at h
    subst h
    simp [nodeAll, inspectNode, initState]
  | callExprN f args p =>
    simp only [inspectNode, Option.some.injEq] at h
    subst h
    simp [nodeAll, inspectNode, initState]
  | otherN p =>
    simp only [inspectNode, Option.some.injEq] at h
    subst h
    simp [nodeAll, inspectNode, initState]

/-- A visited node on which the callback completes without panicking:
every node except a function declaration without a body. -/
def nodeOk : VNode → Bool
  | .funcDeclN fd => fd.body.isSome
  | _ => true

theorem inspectNode_isSome (pk fn : String) (imps : List ImportSpec) (n : VNode)
    (st : AState) : (inspectNode pk fn imps n st).isSome = nodeOk n := by
  cases n with
  | funcDeclN fd =>
    cases hb : fd.body with
    | none => simp [inspectNode, handleFuncDecl, hb, nodeOk]
    | some sl => simp [inspectNode, handleFuncDecl, hb, nodeOk]
  | goStmtN p => simp [inspectNode, nodeOk]
  | genDeclVarN p specs => simp [inspectNode, nodeOk]
  | genDeclTypeN p specs => simp [inspectNode, nodeOk]
  | importSpecN spec => simp [inspectNode, nodeOk]
  | returnStmtN p results => simp [inspectNode, nodeOk]
  | callExprN f args p => simp [inspectNode, nodeOk]
  | otherN p => simp [inspectNode, nodeOk]

theorem foldNodes_some_diags (pk fn : String) (imps : List ImportSpec) :
    ∀ (nodes : List VNode) (st st' : AState),
      foldNodes pk fn imps nodes st = some st' →
      st'.diags = st.diags ++ nodes.flatMap (nodeAll pk fn imps) := by
  intro nodes
  induction nodes with
  | nil =>
    intro st st' h
    simp only [foldNodes, Option.some.injEq] at h
    subst h
    simp
  | cons n rest ih =>
    intro st st' h
    simp only [foldNodes] at h
    cases hstep : inspectNode pk fn imps n st with
    | none => rw [hstep] at h; exact absurd h (by simp)
    | some st₁ =>
      rw [hstep] at h
      have h1 := inspectNode_some_diags pk fn imps n st st₁ hstep
      have h2 := ih st₁ st' h
      rw [h2, h1]
      simp [List.flatMap_cons, List.append_assoc]

theorem foldNodes_some_ok (pk fn : String) (imps : List ImportSpec) :
    ∀ (nodes : List VNode) (st st' : AState),
      foldNodes pk fn imps nodes st = some st' →
      ∀ n ∈ nodes, nodeOk n = true := by
  intro nodes
  induction nodes with
  | nil => intro st st' _ n hn; exact absurd hn (by simp)
  | cons n rest ih =>
    intro st st' h n' hn'
    simp only [foldNodes] at h
    cases hstep : inspectNode pk fn imps n st with
    | none => rw [hstep] at h; exact absurd h (by simp)
    | some st₁ =>
      rw [hstep] at h
      rcases List.mem_cons.mp hn' with rfl | hmem
      · have := inspectNode_isSome pk fn imps n' st
        rw [hstep] at this
        simpa using this.symm
      · exact ih st₁ st' h n' hmem

/-- All per-node contributions of a run, in order. -/
def passNodeDiags (pass : Pass) : List Diag :=
  pass.files.flatMap (fun f => (visitFile f).flatMap (nodeAll pass.pkgPath f.name f.imports))

theorem runFiles_some_diags (pk : String) :
    ∀ (files : List File) (st st' : AState),
      runFiles pk files st = some st' →
      st'.diags = st.diags ++
        files.flatMap (fun f => (visitFile f).flatMap (nodeAll pk f.name f.imports)) := by
  intro files
  induction files with
  | nil =>
    intro st st' h
    simp only [runFiles, Option.some.injEq] at h
    subst h
    simp
  | cons f rest ih =>
    intro st st' h
    simp only [runFiles] at h
    cases hstep : runFile pk f st with
    | none => rw [hstep] at h; exact absurd h (by simp)
    | some st₁ =>
      rw [hstep] at h
      have h1 := foldNodes_some_diags pk f.name f.imports (visitFile f) st st₁ hstep
      have h2 := ih st₁ st' h
      rw [h2, h1]
      simp [List.flatMap_cons, List.append_assoc]

theorem runFiles_some_ok (pk : String) :
    ∀ (files : List File) (st st' : AState),
      runFiles pk files st = some st' →
      ∀ f ∈ files, ∀ n ∈ visitFile f, nodeOk n = true := by
  intro files
  induction files with
  | nil => intro st st' _ f hf; exact absurd hf (by simp)
  | cons f rest ih =>
    intro st st' h f' hf'
    simp only [runFiles] at h
    cases hstep : runFile pk f st with
    | none => rw [hstep] at h; exact absurd h (by simp)
    | some st₁ =>
      rw [hstep] at h
      rcases List.mem_cons.mp hf' with rfl | hmem
      · exact foldNodes_some_ok pk f'.name f'.imports (visitFile f') st st₁ hstep
      · exact ih st₁ st' h f' hmem

theorem reconcileStructs_shape :
    ∀ (structs checkers : List (String × Reporter)),
      ∀ d ∈ (reconcileStructs structs checkers).1, ∃ s, d.msg = Msg.missingFunc s := by
  intro structs
  induction structs with
  | nil => intro checkers d hd; exact absurd hd (by simp [reconcileStructs])
  | cons ent rest ih =>
    intro checkers d hd
    obtain ⟨e, rep⟩ := ent
    simp only [reconcileStructs] at hd
    rcases List.mem_append.mp hd with h1 | h2
    · revert h1
      split <;> intro h1
      · exact absurd h1 (by simp)
      · simp only [List.mem_singleton] at h1
        subst h1
        exact ⟨"Is" ++ e, rfl⟩
    · exact ih (eraseA checkers ("Is" ++ e)) d h2

theorem reconcileCheckers_shape :
    ∀ (structs checkers : List (String × Reporter)),
      ∀ d ∈ reconcileCheckers structs checkers, ∃ s, d.msg = Msg.missingStruct s := by
  intro structs checkers
  induction checkers with
  | nil => intro d hd; exact absurd hd (by simp [reconcileCheckers])
  | cons ent rest ih =>
    intro d hd
    obtain ⟨c, rep⟩ := ent
    simp only [reconcileCheckers] at hd
    rcases List.mem_append.mp hd with h1 | h2
    · revert h1
      split <;> intro h1
      · exact absurd h1 (by simp)
      · simp only [List.mem_singleton] at h1
        subst h1
        exact ⟨trimPre c "Is", rfl⟩
    · exact ih d h2

theorem reconcilePairList_shape :
    ∀ (m : List (String × Pair)),
      ∀ d ∈ reconcilePairList m, ∃ s, d.msg = Msg.missingFunc s := by
  intro m
  induction m with
  | nil => intro d hd; exact absurd hd (by simp [reconcilePairList])
  | cons ent rest ih =>
    intro d hd
    obtain ⟨k, p⟩ := ent
    simp only [reconcilePairList] at hd
    rcases List.mem_append.mp hd with h1 | h2
    · revert h1
      match hp : p.first, hq : p.second with
      | some fe, none =>
        intro h1
        simp only [List.mem_singleton] at h1
        subst h1
        exact ⟨oppositeOfFirst fe.name, rfl⟩
      | none, some se =>
        intro h1
        simp only [List.mem_singleton] at h1
        subst h1
        exact ⟨oppositeOfSecond se.name, rfl⟩
      | none, none => intro h1; exact absurd h1 (by simp)
      | some fe, some se => intro h1; exact absurd h1 (by simp)
    · exact ih d h2

/-- Master counting lemma: in a completed run, the number of diagnostics
with a non-reconciliation message `m` equals the sum of the per-node
contributions. -/
theorem countMsg_run (pass : Pass) (ds : List Diag) (m : Msg)
    (h : runAnalyzer pass = some ds)
    (hm1 : ∀ s, m ≠ Msg.missingFunc s) (hm2 : ∀ s, m ≠ Msg.missingStruct s) :
    countMsg ds m = countMsg (passNodeDiags pass) m := by
  unfold runAnalyzer at h
  cases hrun : runFiles pass.pkgPath pass.files initState with
  | none => rw [hrun] at h; exact absurd h (by simp)
  | some st =>
    rw [hrun] at h
    simp only [Option.some.injEq] at h
    subst h
    have hdiags := runFiles_some_diags pass.pkgPath pass.files initState st hrun
    have hz1 : countMsg (reconcileStructs st.errorStructMap st.errorCheckerMap).1 m = 0 := by
      apply countMsg_eq_zero_of_ne
      intro d hd
      obtain ⟨s, hs⟩ := reconcileStructs_shape st.errorStructMap st.errorCheckerMap d hd
      rw [hs]
      exact fun hc => hm1 s hc.symm
    have hz2 : countMsg
        (reconcileCheckers st.errorStructMap
          (reconcileStructs st.errorStructMap st.errorCheckerMap).2) m = 0 := by
      apply countMsg_eq_zero_of_ne
      intro d hd
      obtain ⟨s, hs⟩ := reconcileCheckers_shape st.errorStructMap
        (reconcileStructs st.errorStructMap st.errorCheckerMap).2 d hd
      rw [hs]
      exact fun hc => hm2 s hc.symm
    have hz3 : countMsg (reconcilePairList st.a2b) m = 0 := by
      apply countMsg_eq_zero_of_ne
      intro d hd
      obtain ⟨s, hs⟩ := reconcilePairList_shape st.a2b d hd
      rw [hs]
      exact fun hc => hm1 s hc.symm
    simp only [reconcilePairs, reconcileErrors]
    rw [countMsg_append, countMsg_append, countMsg_append, hz1, hz2, hz3, hdiags,
      countMsg_append]
    simp [initState, passNodeDiags, countMsg]

/-! ## Per-node contribution lemmas -/

/-- The diagnostics appended by the node-kind type switch alone (expressed
with the same per-branch helper definitions `inspectNode` uses). -/
def switchExtra : VNode → List Diag
  | .goStmtN p => [⟨p, .rawGoroutine⟩]
  | .genDeclVarN _ specs => exportedVarDiags specs
  | .genDeclTypeN _ _ => []
  | .importSpecN spec => bannedImportDiags spec
  | .funcDeclN fd =>
      (match fd.body with
       | some sl => funcNameDiags fd ++ ctxPosDiags fd ++ errPosDiags fd ++ noElseDiags sl
       | none => [])
  | .returnStmtN p rs => returnErrDiags p rs
  | .callExprN f args p => makeCallDiags f args p
  | .otherN _ => []

theorem nodeAll_eq (pk fn : String) (imps : List ImportSpec) (n : VNode)
    (hok : nodeOk n = true) :
    nodeAll pk fn imps n =
      pkgNameDiags pk n.nodePos ++ importLoopDiags pk imps ++ switchExtra n := by
  cases n with
  | funcDeclN fd =>
    cases hb : fd.body with
    | none => simp [nodeOk, hb] at hok
    | some sl =>
      simp [nodeAll, inspectNode, handleFuncDecl, hb, funcDeclRegistry_diags, initState,
        switchExtra, VNode.nodePos]
  | goStmtN p => simp [nodeAll, inspectNode, initState, switchExtra, VNode.nodePos]
  | genDeclVarN p specs => simp [nodeAll, inspectNode, initState, switchExtra, VNode.nodePos]
  | genDeclTypeN p specs => simp [nodeAll, inspectNode, initState, switchExtra, VNode.nodePos]
  | importSpecN spec => simp [nodeAll, inspectNode, initState, switchExtra, VNode.nodePos]
  | returnStmtN p rs => simp [nodeAll, inspectNode, initState, switchExtra, VNode.nodePos]
  | callExprN f args p => simp [nodeAll, inspectNode, initState, switchExtra, VNode.nodePos]
  | otherN p => simp [nodeAll, inspectNode, initState, switchExtra, VNode.nodePos]

theorem mem_pkgNameDiags (pk : String) (p : Nat) (d : Diag)
    (hd : d ∈ pkgNameDiags pk p) : ∃ a b, d.msg = Msg.bannedPkgName a b := by
  unfold pkgNameDiags at hd
  revert hd
  split
  · intro hd; exact absurd hd (by simp)
  · split
    · intro hd; exact absurd hd (by simp)
    · intro hd
      simp only [List.mem_singleton] at hd
      subst hd
      exact ⟨_, _, rfl⟩

theorem mem_exportedVarDiags (specs : List ValueSpec) (d : Diag)
    (hd : d ∈ exportedVarDiags specs) : ∃ s, d.msg = Msg.exportedGlobal s := by
  unfold exportedVarDiags at hd
  obtain ⟨vs, _, hmem⟩ := List.mem_flatMap.mp hd
  revert hmem
  split
  · split
    · intro hmem
      simp only [List.mem_singleton] at hmem
      subst hmem
      exact ⟨_, rfl⟩
    · intro hmem; exact absurd hmem (by simp)
  · intro hmem; exact absurd hmem (by simp)

theorem mem_bannedImportDiags (spec : ImportSpec) (d : Diag)
    (hd : d ∈ bannedImportDiags spec) : ∃ a b, d.msg = Msg.bannedImport a b := by
  unfold bannedImportDiags at hd
  revert hd
  split
  · intro hd; exact absurd hd (by simp)
  · split
    · intro hd; exact absurd hd (by simp)
    · intro hd
      simp only [List.mem_singleton] at hd
      subst hd
      exact ⟨_, _, rfl⟩

theorem mem_funcNameDiags (fd : FuncDecl) (d : Diag)
    (hd : d ∈ funcNameDiags fd) : d.msg = Msg.missingCtxParam := by
  unfold funcNameDiags at hd
  revert hd
  split
  · intro hd; exact absurd hd (by simp)
  · split
    · split
      · intro hd; exact absurd hd (by simp)
      · intro hd
        simp only [List.mem_singleton] at hd
        subst hd
        rfl
    · intro hd; exact absurd hd (by simp)

theorem mem_ctxPosDiags (fd : FuncDecl) (d : Diag)
    (hd : d ∈ ctxPosDiags fd) : d.msg = Msg.ctxNotFirst := by
  unfold ctxPosDiags at hd
  revert hd
  split
  · split
    · intro hd
      simp only [List.mem_singleton] at hd
      subst hd
      rfl
    · intro hd; exact absurd hd (by simp)
  · intro hd; exact absurd hd (by simp)

theorem mem_errPosDiags (fd : FuncDecl) (d : Diag)
    (hd : d ∈ errPosDiags fd) : d.msg = Msg.errNotLast := by
  unfold errPosDiags at hd
  revert hd
  split
  · intro hd; exact absurd hd (by simp)
  · split <;>
      (intro hd
       dsimp only at hd
       split at hd
       · simp only [List.mem_singleton] at hd
         subst hd
         rfl
       · exact absurd hd (by simp))

theorem mem_noElseDiags :
    ∀ (sl : StmtList) (d : Diag), d ∈ noElseDiags sl → d.msg = Msg.noElse
  | .snil, _, hd => absurd hd (by simp [noElseDiags])
  | .scons s rest, d, hd => by
    simp only [noElseDiags] at hd
    rcases List.mem_append.mp hd with h1 | h2
    · revert h1
      split
      · intro h1
        simp only [List.mem_singleton] at h1
        subst h1
        rfl
      · intro h1; exact absurd h1 (by simp)
    · exact mem_noElseDiags rest d h2

theorem mem_returnErrDiags (p : Nat) :
    ∀ (rs : ExprList) (d : Diag), d ∈ returnErrDiags p rs → d.msg = Msg.returnErr
  | .enil, _, hd => absurd hd (by simp [returnErrDiags])
  | .econs e rest, d, hd => by
    simp only [returnErrDiags] at hd
    rcases List.mem_append.mp hd with h1 | h2
    · revert h1
      split
      · intro h1
        simp only [List.mem_singleton] at h1
        subst h1
        rfl
      · intro h1; exact absurd h1 (by simp)
    · exact mem_returnErrDiags p rest d h2

theorem mem_makeCallDiags (f : Expr) (args : ExprList) (p : Nat) (d : Diag)
    (hd : d ∈ makeCallDiags f args p) : d.msg = Msg.makeArgs := by
  unfold makeCallDiags at hd
  revert hd
  split
  · split
    · intro hd
      simp only [List.mem_singleton] at hd
      subst hd
      rfl
    · intro hd; exact absurd hd (by simp)
  · intro hd; exact absurd hd (by simp)

/-! ## Counting the import-loop diagnostics -/

theorem map_congr_mem {α β : Type} (l : List α) (f g : α → β)
    (h : ∀ a ∈ l, f a = g a) : l.map f = l.map g := by
  induction l with
  | nil => rfl
  | cons a l ih =>
    rw [List.map_cons, List.map_cons, h a (List.mem_cons_self a l),
      ih (fun a' ha' => h a' (List.mem_cons_of_mem a ha'))]

theorem countMsg_flatMap {α : Type} (g : α → List Diag) (l : List α) (m : Msg) :
    countMsg (l.flatMap g) m = (l.map (fun a => countMsg (g a) m)).sum := by
  induction l with
  | nil => rfl
  | cons a l ih =>
    rw [List.flatMap_cons, countMsg_append, List.map_cons, List.sum_cons, ih]

theorem sum_map_const_nat {α : Type} (l : List α) (c : Nat) :
    (l.map (fun _ => c)).sum = l.length * c := by
  induction l with
  | nil => simp
  | cons a l ih => simp [ih, Nat.succ_mul, Nat.add_comm]

/-- CLAIM-SIDE for C2: the imports of a file that classify (from their
quoted literals) to the file's group with remainders of equal length. -/
def sameDepthOffenders (pkgPath : String) (imps : List ImportSpec) : List ImportSpec :=
  imps.filter (fun imp =>
    (splitPackagePath pkgPath).1 = (splitPackagePath imp.pathValue).1 ∧
    (splitPackagePath pkgPath).2.length = (splitPackagePath imp.pathValue).2.length)

theorem countMsg_sameDepthDiags1 (g : String) (ps : List String) (imp : ImportSpec) :
    countMsg (sameDepthDiags1 g ps imp) Msg.sameGroupSameDepth =
      if g = (splitPackagePath imp.pathValue).1 ∧
          ps.length = (splitPackagePath imp.pathValue).2.length then 1 else 0 := by
  unfold sameDepthDiags1
  split <;> simp [countMsg]

theorem mem_legalityDiags1 (g : String) (imp : ImportSpec) (d : Diag)
    (hd : d ∈ legalityDiags1 g imp) :
    d.msg = Msg.noImportInternal ∨ d.msg = Msg.noImportCommand ∨
      d.msg = Msg.noImportLibrary := by
  unfold legalityDiags1 at hd
  dsimp only at hd
  split_ifs at hd <;>
    simp only [List.mem_singleton, List.not_mem_nil] at hd <;>
    first
      | exact absurd hd (by simp)
      | (subst hd; simp)

theorem countMsg_legalityDiags1_same (g : String) (imp : ImportSpec) :
    countMsg (legalityDiags1 g imp) Msg.sameGroupSameDepth = 0 := by
  apply countMsg_eq_zero_of_ne
  intro d hd
  rcases mem_legalityDiags1 g imp d hd with h | h | h <;> rw [h] <;> intro hc <;> cases hc

theorem countMsg_importLoop_same (pk : String) (imps : List ImportSpec) :
    countMsg (importLoopDiags pk imps) Msg.sameGroupSameDepth =
      (sameDepthOffenders pk imps).length := by
  unfold importLoopDiags sameDepthOffenders
  induction imps with
  | nil => rfl
  | cons imp rest ih =>
    rw [List.flatMap_cons, countMsg_append, importDiags1, countMsg_append,
      countMsg_sameDepthDiags1, countMsg_legalityDiags1_same, List.filter_cons]
    by_cases hc : (splitPackagePath pk).1 = (splitPackagePath imp.pathValue).1 ∧
        (splitPackagePath pk).2.length = (splitPackagePath imp.pathValue).2.length
    · rw [if_pos hc, if_pos (by simpa using hc), List.length_cons, ih]
      omega
    · rw [if_neg hc, if_neg (by simpa using hc), ih]
      omega

theorem countMsg_pkgName_zero (pk : String) (p : Nat) (m : Msg)
    (hm : ∀ a b, m ≠ Msg.bannedPkgName a b) :
    countMsg (pkgNameDiags pk p) m = 0 := by
  apply countMsg_eq_zero_of_ne
  intro d hd
  obtain ⟨a, b, hab⟩ := mem_pkgNameDiags pk p d hd
  rw [hab]
  exact fun hc => hm a b hc.symm

theorem countMsg_switchExtra_zero (n : VNode) (m : Msg)
    (h1 : m ≠ Msg.rawGoroutine) (h2 : ∀ s, m ≠ Msg.exportedGlobal s)
    (h3 : ∀ a b, m ≠ Msg.bannedImport a b) (h4 : m ≠ Msg.missingCtxParam)
    (h5 : m ≠ Msg.ctxNotFirst) (h6 : m ≠ Msg.errNotLast) (h7 : m ≠ Msg.noElse)
    (h8 : m ≠ Msg.returnErr) (h9 : m ≠ Msg.makeArgs) :
    countMsg (switchExtra n) m = 0 := by
  apply countMsg_eq_zero_of_ne
  intro d hd
  cases n with
  | goStmtN p =>
    simp only [switchExtra, List.mem_singleton] at hd
    subst hd
    exact fun hc => h1 hc.symm
  | genDeclVarN p specs =>
    obtain ⟨s, hs⟩ := mem_exportedVarDiags specs d hd
    rw [hs]
    exact fun hc => h2 s hc.symm
  | genDeclTypeN p specs => exact absurd hd (by simp [switchExtra])
  | importSpecN spec =>
    obtain ⟨a, b, hab⟩ := mem_bannedImportDiags spec d hd
    rw [hab]
    exact fun hc => h3 a b hc.symm
  | funcDeclN fd =>
    simp only [switchExtra] at hd
    revert hd
    split
    · intro hd
      rcases List.mem_append.mp hd with hd' | hd4
      · rcases List.mem_append.mp hd' with hd'' | hd3
        · rcases List.mem_append.mp hd'' with hd1 | hd2
          · rw [mem_funcNameDiags fd d hd1]
            exact fun hc => h4 hc.symm
          · rw [mem_ctxPosDiags fd d hd2]
            exact fun hc => h5 hc.symm
        · rw [mem_errPosDiags fd d hd3]
          exact fun hc => h6 hc.symm
      · rw [mem_noElseDiags _ d hd4]
        exact fun hc => h7 hc.symm
    · intro hd; exact absurd hd (by simp)
  | returnStmtN p rs =>
    rw [mem_returnErrDiags p rs d hd]
    exact fun hc => h8 hc.symm
  | callExprN f args p =>
    rw [mem_makeCallDiags f args p d hd]
    exact fun hc => h9 hc.symm
  | otherN p => exact absurd hd (by simp [switchExtra])

theorem countMsg_nodeAll_same (pk fn : String) (imps : List ImportSpec) (n : VNode)
    (hok : nodeOk n = true) :
    countMsg (nodeAll pk fn imps n) Msg.sameGroupSameDepth =
      (sameDepthOffenders pk imps).length := by
  rw [nodeAll_eq pk fn imps n hok, countMsg_append, countMsg_append,
    countMsg_pkgName_zero pk n.nodePos _ (by intro a b hc; cases hc),
    countMsg_importLoop_same,
    countMsg_switchExtra_zero n _ (by intro hc; cases hc) (by intro s hc; cases hc)
      (by intro a b hc; cases hc) (by intro hc; cases hc) (by intro hc; cases hc)
      (by intro hc; cases hc) (by intro hc; cases hc) (by intro hc; cases hc)
      (by intro hc; cases hc)]
  omega

theorem runAnalyzer_ok (pass : Pass) (ds : List Diag)
    (h : runAnalyzer pass = some ds) :
    ∀ f ∈ pass.files, ∀ n ∈ visitFile f, nodeOk n = true := by
  unfold runAnalyzer at h
  cases hrun : runFiles pass.pkgPath pass.files initState with
  | none => rw [hrun] at h; exact absurd h (by simp)
  | some st => exact runFiles_some_ok pass.pkgPath pass.files initState st hrun

/-! ## Claim C2 -/

/-- An import of `m/cmd/b` (quoted literal, as stored in
`ImportSpec.Path.Value`). -/
def c2Imp : ImportSpec := ⟨"\"m/cmd/b\"", 100⟩

/-- A pass over package `m/cmd/a` whose single file holds just that import
declaration; its syntax tree has 3 visited nodes (file, import `GenDecl`,
`ImportSpec`). -/
def c2Pass : Pass := ⟨"m/cmd/a", [⟨"a", 1, [c2Imp], [.genDeclImport 2 [c2Imp]]⟩]⟩

/-- CLAIM C2 counterexample: the file of `c2Pass` and its one import both
classify to group `cmd` with remainders of length 1, yet the
"must not import from the same group, same depth" diagnostic is emitted 3
times over the run — once per visited node, not "exactly once per
offending import" as the claim states. -/
theorem claim2_counterexample :
    (runAnalyzer c2Pass).map (fun ds => countMsg ds Msg.sameGroupSameDepth) =
      some 3 ∧ (3 : Nat) ≠ 1 := by
  constructor
  · decide
  · decide

/-- CLAIM C2 (amended): the same-group-same-depth check runs inside the
per-node `ast.Inspect` callback, so over a completed run the diagnostic is
emitted once per visited node per offending import: its total count is the
sum over files of (number of visited nodes) × (number of imports whose
quoted literal classifies to the file's group with a remainder of the
file's remainder length). -/
theorem claim2_amended (pass : Pass) (ds : List Diag)
    (h : runAnalyzer pass = some ds) :
    countMsg ds Msg.sameGroupSameDepth =
      (pass.files.map (fun f =>
        (visitFile f).length *
          (sameDepthOffenders pass.pkgPath f.imports).length)).sum := by
  rw [countMsg_run pass ds _ h (fun s hc => by cases hc) (fun s hc => by cases hc)]
  unfold passNodeDiags
  rw [countMsg_flatMap]
  have hok := runAnalyzer_ok pass ds h
  have hfile : ∀ f ∈ pass.files,
      countMsg ((visitFile f).flatMap (nodeAll pass.pkgPath f.name f.imports))
          Msg.sameGroupSameDepth =
        (visitFile f).length * (sameDepthOffenders pass.pkgPath f.imports).length := by
    intro f hf
    rw [countMsg_flatMap,
      map_congr_mem (visitFile f) _
        (fun _ => (sameDepthOffenders pass.pkgPath f.imports).length)
        (fun n hn => countMsg_nodeAll_same pass.pkgPath f.name f.imports n (hok f hf n hn)),
      sum_map_const_nat]
  rw [map_congr_mem pass.files _ _ hfile]

/-- Witness for the amended C2 on the concrete pass `c2Pass`
(3 visited nodes × 1 offending import = 3). -/
theorem claim2_witness :
    countMsg ((runAnalyzer c2Pass).getD []) Msg.sameGroupSameDepth =
      (c2Pass.files.map (fun f =>
        (visitFile f).length *
          (sameDepthOffenders c2Pass.pkgPath f.imports).length)).sum :=
  claim2_amended c2Pass _ (by decide)

/-! ## Claim C3 -/

/-- CLAIM-SIDE for C3: the forbidden-import table exactly as stated —
`lib` forbids `internal` and `cmd`; `internal` forbids `cmd`; `model` and
`gen` forbid `cmd`, `internal` and `lib`; all other groups forbid
nothing.  The value is the diagnostic message of the forbidden
combination. -/
def forbiddenTable (fileGroup impGroup : String) : Option Msg :=
  if fileGroup = "lib" then
    if impGroup = "internal" then some .noImportInternal
    else if impGroup = "cmd" then some .noImportCommand
    else none
  else if fileGroup = "internal" then
    if impGroup = "cmd" then some .noImportCommand
    else none
  else if fileGroup = "model" ∨ fileGroup = "gen" then
    if impGroup = "cmd" then some .noImportCommand
    else if impGroup = "internal" then some .noImportInternal
    else if impGroup = "lib" then some .noImportLibrary
    else none
  else none

/-- CLAIM-SIDE for C3: the imports of a file whose (quoted-literal) group
is forbidden for the file's group with message `m`. -/
def legalOffenders (pkgPath : String) (imps : List ImportSpec) (m : Msg) :
    List ImportSpec :=
  imps.filter (fun imp =>
    forbiddenTable (splitPackagePath pkgPath).1 (splitPackagePath imp.pathValue).1 = some m)

theorem mem_sameDepthDiags1 (g : String) (ps : List String) (imp : ImportSpec)
    (d : Diag) (hd : d ∈ sameDepthDiags1 g ps imp) :
    d.msg = Msg.sameGroupSameDepth := by
  unfold sameDepthDiags1 at hd
  revert hd
  split
  · intro hd
    simp only [List.mem_singleton] at hd
    subst hd
    rfl
  · intro hd; exact absurd hd (by simp)

theorem countMsg_sameDepthDiags1_zero (g : String) (ps : List String)
    (imp : ImportSpec) (m : Msg) (hm : m ≠ Msg.sameGroupSameDepth) :
    countMsg (sameDepthDiags1 g ps imp) m = 0 := by
  apply countMsg_eq_zero_of_ne
  intro d hd
  rw [mem_sameDepthDiags1 g ps imp d hd]
  exact fun hc => hm hc.symm

theorem countMsg_legalityDiags1_table (g : String) (imp : ImportSpec) (m : Msg)
    (hm : m = Msg.noImportInternal ∨ m = Msg.noImportCommand ∨ m = Msg.noImportLibrary) :
    countMsg (legalityDiags1 g imp) m =
      if forbiddenTable g (splitPackagePath imp.pathValue).1 = some m then 1 else 0 := by
  unfold legalityDiags1 forbiddenTable
  dsimp only
  simp only [LibraryGroup, InternalGroup, CommandGroup, ModelGroup, GenGroup]
  rcases hm with rfl | rfl | rfl <;> (split_ifs <;> simp_all [countMsg])

theorem countMsg_importLoop_legal (pk : String) (imps : List ImportSpec) (m : Msg)
    (hm : m = Msg.noImportInternal ∨ m = Msg.noImportCommand ∨ m = Msg.noImportLibrary) :
    countMsg (importLoopDiags pk imps) m = (legalOffenders pk imps m).length := by
  have hmne : m ≠ Msg.sameGroupSameDepth := by
    rcases hm with rfl | rfl | rfl <;> (intro hc; cases hc)
  unfold importLoopDiags legalOffenders
  induction imps with
  | nil => rfl
  | cons imp rest ih =>
    rw [List.flatMap_cons, countMsg_append, importDiags1, countMsg_append,
      countMsg_sameDepthDiags1_zero _ _ _ _ hmne,
      countMsg_legalityDiags1_table _ _ _ hm, List.filter_cons]
    by_cases hc : forbiddenTable (splitPackagePath pk).1
        (splitPackagePath imp.pathValue).1 = some m
    · rw [if_pos hc, if_pos (by simpa using hc), List.length_cons, ih]
      omega
    · rw [if_neg hc, if_neg (by simpa using hc), ih]
      omega

theorem countMsg_nodeAll_legal (pk fn : String) (imps : List ImportSpec) (n : VNode)
    (hok : nodeOk n = true) (m : Msg)
    (hm : m = Msg.noImportInternal ∨ m = Msg.noImportCommand ∨ m = Msg.noImportLibrary) :
    countMsg (nodeAll pk fn imps n) m = (legalOffenders pk imps m).length := by
  have h1 : ∀ a b, m ≠ Msg.bannedPkgName a b := by
    rcases hm with rfl | rfl | rfl <;> (intro a b hc; cases hc)
  rw [nodeAll_eq pk fn imps n hok, countMsg_append, countMsg_append,
    countMsg_pkgName_zero pk n.nodePos _ h1, countMsg_importLoop_legal pk imps m hm]
  have h2 : countMsg (switchExtra n) m = 0 := by
    rcases hm with rfl | rfl | rfl <;> apply countMsg_switchExtra_zero <;> simp
  rw [h2]
  omega

/-- An import of `m/internal/x` (quoted literal). -/
def c3ImpInternal : ImportSpec := ⟨"\"m/internal/x\"", 100⟩

/-- An import of `m/model/y` (quoted literal). -/
def c3ImpModel : ImportSpec := ⟨"\"m/model/y\"", 200⟩

/-- A pass over package `m/lib/a` whose single file imports
`m/internal/x`; the tree has 3 visited nodes. -/
def c3Pass : Pass :=
  ⟨"m/lib/a", [⟨"a", 1, [c3ImpInternal], [.genDeclImport 2 [c3ImpInternal]]⟩]⟩

/-- CLAIM C3 counterexample: the file of `c3Pass` is in group `lib` and
it imports a path in group `internal`, but "must not import from internal
package" is emitted 3 times (once per visited node), not "exactly one
diagnostic ... for that import" as the claim states. -/
theorem claim3_counterexample :
    (runAnalyzer c3Pass).map (fun ds => countMsg ds Msg.noImportInternal) =
      some 3 ∧ (3 : Nat) ≠ 1 := by
  constructor
  · decide
  · decide

/-- CLAIM C3 (amended): the forbidden-import table is as the claim states
(`lib` forbids `internal`,`cmd`; `internal` forbids `cmd`; `model`/`gen`
forbid `cmd`,`internal`,`lib`; others forbid nothing — in particular an
imported path classifying into group `model` never produces a layering
diagnostic), but each forbidden-import diagnostic is emitted once per
visited node of the file, not exactly once per import. -/
theorem claim3_amended (pass : Pass) (ds : List Diag) (m : Msg)
    (h : runAnalyzer pass = some ds)
    (hm : m = Msg.noImportInternal ∨ m = Msg.noImportCommand ∨ m = Msg.noImportLibrary) :
    countMsg ds m =
      (pass.files.map (fun f =>
        (visitFile f).length * (legalOffenders pass.pkgPath f.imports m).length)).sum := by
  have hm1 : ∀ s, m ≠ Msg.missingFunc s := by
    rcases hm with rfl | rfl | rfl <;> simp
  have hm2 : ∀ s, m ≠ Msg.missingStruct s := by
    rcases hm with rfl | rfl | rfl <;> simp
  rw [countMsg_run pass ds _ h hm1 hm2]
  unfold passNodeDiags
  rw [countMsg_flatMap]
  have hok := runAnalyzer_ok pass ds h
  have hfile : ∀ f ∈ pass.files,
      countMsg ((visitFile f).flatMap (nodeAll pass.pkgPath f.name f.imports)) m =
        (visitFile f).length * (legalOffenders pass.pkgPath f.imports m).length := by
    intro f hf
    rw [countMsg_flatMap,
      map_congr_mem (visitFile f) _
        (fun _ => (legalOffenders pass.pkgPath f.imports m).length)
        (fun n hn => countMsg_nodeAll_legal pass.pkgPath f.name f.imports n
          (hok f hf n hn) m hm),
      sum_map_const_nat]
  rw [map_congr_mem pass.files _ _ hfile]

/-- A pass over `m/lib/a` importing both `m/internal/x` and `m/model/y`. -/
def c3wPass : Pass :=
  ⟨"m/lib/a", [⟨"a", 1, [c3ImpInternal, c3ImpModel],
    [.genDeclImport 2 [c3ImpInternal, c3ImpModel]]⟩]⟩

/-- Witness for the amended C3 on `c3wPass`: the `internal` import yields
(number of nodes) × 1 diagnostics, the `model` import none. -/
theorem claim3_witness :
    countMsg ((runAnalyzer c3wPass).getD []) Msg.noImportInternal =
      (c3wPass.files.map (fun f =>
        (visitFile f).length *
          (legalOffenders c3wPass.pkgPath f.imports Msg.noImportInternal).length)).sum :=
  claim3_amended c3wPass _ Msg.noImportInternal (by decide) (Or.inl rfl)

/-! ## Claim C6 -/

/-- CLAIM-SIDE for C6: is the statement an if statement with an else
branch? -/
def stmtIsIfWithElse : Stmt → Bool
  | .ifStmt _ _ (.someElse _) => true
  | _ => false

/-- CLAIM-SIDE for C6: number of statements directly in a body's
top-level list that are if statements with an else branch. -/
def topElseCount : StmtList → Nat
  | .snil => 0
  | .scons s rest => (if stmtIsIfWithElse s then 1 else 0) + topElseCount rest

/-- CLAIM-SIDE for C6: the no-else diagnostics contributed by one visited
node — nonzero only for a function-declaration node, and determined only
by the top-level statement list of its body. -/
def nodeElseCount : VNode → Nat
  | .funcDeclN fd =>
      (match fd.body with
       | some sl => topElseCount sl
       | none => 0)
  | _ => 0

theorem countMsg_noElseDiags :
    ∀ sl : StmtList, countMsg (noElseDiags sl) Msg.noElse = topElseCount sl
  | .snil => rfl
  | .scons s rest => by
    have ih := countMsg_noElseDiags rest
    cases s with
    | ifStmt p body els =>
      cases els with
      | noElse =>
        simpa [noElseDiags, topElseCount, stmtIsIfWithElse, countMsg_append, countMsg]
          using ih
      | someElse e =>
        simp [noElseDiags, topElseCount, stmtIsIfWithElse, countMsg_append, countMsg]
          at ih ⊢
        omega
    | blockStmt p ss =>
      simpa [noElseDiags, topElseCount, stmtIsIfWithElse, countMsg_append, countMsg] using ih
    | goStmt p c =>
      simpa [noElseDiags, topElseCount, stmtIsIfWithElse, countMsg_append, countMsg] using ih
    | returnStmt p rs =>
      simpa [noElseDiags, topElseCount, stmtIsIfWithElse, countMsg_append, countMsg] using ih
    | exprStmt e =>
      simpa [noElseDiags, topElseCount, stmtIsIfWithElse, countMsg_append, countMsg] using ih
    | declVarStmt p specs =>
      simpa [noElseDiags, topElseCount, stmtIsIfWithElse, countMsg_append, countMsg] using ih
    | declTypeStmt p specs =>
      simpa [noElseDiags, topElseCount, stmtIsIfWithElse, countMsg_append, countMsg] using ih

theorem countMsg_importLoop_noElse (pk : String) (imps : List ImportSpec) :
    countMsg (importLoopDiags pk imps) Msg.noElse = 0 := by
  apply countMsg_eq_zero_of_ne
  intro d hd
  unfold importLoopDiags at hd
  obtain ⟨imp, _, hmem⟩ := List.mem_flatMap.mp hd
  unfold importDiags1 at hmem
  rcases List.mem_append.mp hmem with h1 | h2
  · rw [mem_sameDepthDiags1 _ _ _ d h1]
    intro hc; cases hc
  · rcases mem_legalityDiags1 _ _ d h2 with h | h | h <;> rw [h] <;> intro hc <;> cases hc

theorem countMsg_nodeAll_noElse (pk fn : String) (imps : List ImportSpec) (n : VNode)
    (hok : nodeOk n = true) :
    countMsg (nodeAll pk fn imps n) Msg.noElse = nodeElseCount n := by
  rw [nodeAll_eq pk fn imps n hok, countMsg_append, countMsg_append,
    countMsg_pkgName_zero pk n.nodePos _ (by intro a b hc; cases hc),
    countMsg_importLoop_noElse]
  cases n with
  | funcDeclN fd =>
    cases hb : fd.body with
    | none => simp [nodeOk, hb] at hok
    | some sl =>
      simp only [switchExtra, nodeElseCount, hb]
      rw [countMsg_append, countMsg_append, countMsg_append]
      have z1 : countMsg (funcNameDiags fd) Msg.noElse = 0 :=
        countMsg_eq_zero_of_ne _ _ (fun d hd => by
          rw [mem_funcNameDiags fd d hd]; intro hc; cases hc)
      have z2 : countMsg (ctxPosDiags fd) Msg.noElse = 0 :=
        countMsg_eq_zero_of_ne _ _ (fun d hd => by
          rw [mem_ctxPosDiags fd d hd]; intro hc; cases hc)
      have z3 : countMsg (errPosDiags fd) Msg.noElse = 0 :=
        countMsg_eq_zero_of_ne _ _ (fun d hd => by
          rw [mem_errPosDiags fd d hd]; intro hc; cases hc)
      rw [z1, z2, z3, countMsg_noElseDiags]
      omega
  | goStmtN p => simp [switchExtra, nodeElseCount, countMsg]
  | genDeclVarN p specs =>
    simp only [switchExtra, nodeElseCount]
    have : countMsg (exportedVarDiags specs) Msg.noElse = 0 :=
      countMsg_eq_zero_of_ne _ _ (fun d hd => by
        obtain ⟨s, hs⟩ := mem_exportedVarDiags specs d hd
        rw [hs]; intro hc; cases hc)
    omega
  | genDeclTypeN p specs => simp [switchExtra, nodeElseCount, countMsg]
  | importSpecN spec =>
    simp only [switchExtra, nodeElseCount]
    have : countMsg (bannedImportDiags spec) Msg.noElse = 0 :=
      countMsg_eq_zero_of_ne _ _ (fun d hd => by
        obtain ⟨a, b, hab⟩ := mem_bannedImportDiags spec d hd
        rw [hab]; intro hc; cases hc)
    omega
  | returnStmtN p rs =>
    simp only [switchExtra, nodeElseCount]
    have : countMsg (returnErrDiags p rs) Msg.noElse = 0 :=
      countMsg_eq_zero_of_ne _ _ (fun d hd => by
        rw [mem_returnErrDiags p rs d hd]; intro hc; cases hc)
    omega
  | callExprN f args p =>
    simp only [switchExtra, nodeElseCount]
    have : countMsg (makeCallDiags f args p) Msg.noElse = 0 :=
      countMsg_eq_zero_of_ne _ _ (fun d hd => by
        rw [mem_makeCallDiags f args p d hd]; intro hc; cases hc)
    omega
  | otherN p => simp [switchExtra, nodeElseCount, countMsg]

/-- The inner if statement of the C6 counterexample: it has an else
branch. -/
def c6InnerIf : Stmt := .ifStmt 30 .snil (.someElse (.blockStmt 31 .snil))

/-- The outer if statement (no else branch) whose body nests
`c6InnerIf`. -/
def c6OuterIf : Stmt := .ifStmt 20 (.scons c6InnerIf .snil) .noElse

/-- A pass whose single function body's top-level list holds only
`c6OuterIf`; the if-with-else `c6InnerIf` sits at nesting depth 1. -/
def c6Pass : Pass :=
  ⟨"m/lib/a", [⟨"a", 1, [],
    [.funcDecl ⟨"run", 10, [], none, some (.scons c6OuterIf .snil)⟩]⟩]⟩

/-- CLAIM C6 counterexample: `c6InnerIf` is an if statement with an else
branch nested inside the function body of `c6Pass`, yet the run emits no
no-else diagnostic at all — the rule does not fire "regardless of nesting
depth"; it only examines the body's top-level statement list. -/
theorem claim6_counterexample :
    stmtIsIfWithElse c6InnerIf = true ∧
    (runAnalyzer c6Pass).map (fun ds => countMsg ds Msg.noElse) = some 0 := by
  constructor
  · decide
  · decide

/-- CLAIM C6 (amended): an if statement with an else branch is flagged if
and only if it appears directly in a function body's top-level statement
list; nested if statements are never examined by this rule, and an if
statement without an else branch is never flagged.  Quantitatively: the
run's no-else diagnostic count is the sum, over function-declaration
nodes, of the number of top-level body statements that are if statements
with an else branch. -/
theorem claim6_amended (pass : Pass) (ds : List Diag)
    (h : runAnalyzer pass = some ds) :
    countMsg ds Msg.noElse =
      (pass.files.map (fun f =>
        ((visitFile f).map nodeElseCount).sum)).sum := by
  rw [countMsg_run pass ds _ h (fun s hc => by cases hc) (fun s hc => by cases hc)]
  unfold passNodeDiags
  rw [countMsg_flatMap]
  have hok := runAnalyzer_ok pass ds h
  have hfile : ∀ f ∈ pass.files,
      countMsg ((visitFile f).flatMap (nodeAll pass.pkgPath f.name f.imports)) Msg.noElse =
        ((visitFile f).map nodeElseCount).sum := by
    intro f hf
    rw [countMsg_flatMap,
      map_congr_mem (visitFile f) _ nodeElseCount
        (fun n hn => countMsg_nodeAll_noElse pass.pkgPath f.name f.imports n (hok f hf n hn))]
  rw [map_congr_mem pass.files _ _ hfile]

/-- A pass with one top-level if-with-else and one top-level if-without-
else in the same body. -/
def c6wPass : Pass :=
  ⟨"m/lib/a", [⟨"a", 1, [],
    [.funcDecl ⟨"run", 10, [], none,
      some (.scons (.ifStmt 20 .snil (.someElse (.blockStmt 21 .snil)))
        (.scons (.ifStmt 22 .snil .noElse) .snil))⟩]⟩]⟩

/-- Witness for the amended C6 on `c6wPass`: exactly the one top-level
if-with-else is counted. -/
theorem claim6_witness :
    countMsg ((runAnalyzer c6wPass).getD []) Msg.noElse =
      (c6wPass.files.map (fun f => ((visitFile f).map nodeElseCount).sum)).sum :=
  claim6_amended c6wPass _ (by decide)

/-! ## Claim C8 -/

/-- A function declaration without a body (`Body == nil`), as produced for
a Go declaration like `func external()` implemented elsewhere. -/
def c8Fd : FuncDecl := ⟨"external", 5, [], none, none⟩

/-- A pass whose single file holds only that bodiless declaration. -/
def c8Pass : Pass := ⟨"m/lib/a", [⟨"a", 1, [], [.funcDecl c8Fd]⟩]⟩

/-- CLAIM C8 is contradicted by the code: on a well-formed tree containing
a function declaration without a body, `runAnalyzer` dereferences
`node.Body.List` on a nil `Body` (line 279 of `analyzer.go`) and the run
panics instead of completing — modelled here as returning `none`. -/
theorem claim8_bodiless_func_aborts : runAnalyzer c8Pass = none := by decide

/-! ## Claim C9 -/

/-- A pass whose single function body declares a local variable `X` whose
(first) declared name is exported. -/
def c9Pass : Pass :=
  ⟨"m/lib/a", [⟨"a", 1, [],
    [.funcDecl ⟨"run", 10, [], none,
      some (.scons (.declVarStmt 20 [⟨["X"], 21⟩]) .snil)⟩]⟩]⟩

/-- CLAIM C9 counterexample: the var declaration sits inside a function
body, which the claim says is never flagged; but `ast.Inspect` visits the
nested `GenDecl` and the rule fires — the run emits the exported-variable
diagnostic once, not zero times. -/
theorem claim9_counterexample :
    (runAnalyzer c9Pass).map (fun ds => countMsg ds (Msg.exportedGlobal "X")) =
      some 1 ∧ (1 : Nat) ≠ 0 := by
  constructor
  · decide
  · decide

/-- CLAIM C9 (amended): the exported-variable rule flags a declaration
spec if and only if its first declared name is exported — regardless of
whether the var declaration appears at file scope or inside a function
body (both produce a visited `GenDecl` node) — and a spec whose first
name is unexported is not flagged even if a later name in the same spec
is exported (only the head name is consulted). -/
theorem claim9_amended :
    (∀ (specs : List ValueSpec) (vs : ValueSpec) (n : String), vs ∈ specs →
        vs.names.head? = some n → isExportedName n = true →
        (⟨vs.pos, Msg.exportedGlobal n⟩ : Diag) ∈ exportedVarDiags specs) ∧
    (∀ specs : List ValueSpec,
        (∀ vs ∈ specs, ∀ n, vs.names.head? = some n → isExportedName n = false) →
        exportedVarDiags specs = []) ∧
    (∀ (p : Nat) (specs : List ValueSpec),
        VNode.genDeclVarN p specs ∈ visitStmt (Stmt.declVarStmt p specs)) ∧
    (∀ (p : Nat) (specs : List ValueSpec),
        VNode.genDeclVarN p specs ∈ visitDecl (Decl.genDeclVar p specs)) := by
  refine ⟨?_, ?_, ?_, ?_⟩
  · intro specs vs n hmem hhead hexp
    unfold exportedVarDiags
    apply List.mem_flatMap.mpr
    refine ⟨vs, hmem, ?_⟩
    rw [hhead]
    simp [hexp]
  · intro specs h
    unfold exportedVarDiags
    induction specs with
    | nil => rfl
    | cons vs rest ih =>
      rw [List.flatMap_cons]
      have h1 : (match vs.names.head? with
          | some n => if isExportedName n then [(⟨vs.pos, Msg.exportedGlobal n⟩ : Diag)] else []
          | none => []) = [] := by
        cases hh : vs.names.head? with
        | none => rfl
        | some n =>
          have hf := h vs (List.mem_cons_self vs rest) n hh
          simp [hf]
      rw [h1, List.nil_append]
      exact ih (fun vs' hv' n hn => h vs' (List.mem_cons_of_mem vs hv') n hn)
  · intro p specs
    simp [visitStmt]
  · intro p specs
    simp [visitDecl]

/-- Witness for the amended C9: a spec with unexported first name `x` and
exported second name `Y` is not flagged; a spec with exported first name
`X` is flagged. -/
theorem claim9_witness :
    exportedVarDiags [⟨["x", "Y"], 5⟩] = [] ∧
    (⟨6, Msg.exportedGlobal "X"⟩ : Diag) ∈ exportedVarDiags [⟨["X"], 6⟩] := by
  constructor
  · exact claim9_amended.2.1 [⟨["x", "Y"], 5⟩] (by decide)
  · exact claim9_amended.1 [⟨["X"], 6⟩] ⟨["X"], 6⟩ "X" (List.mem_singleton.mpr rfl)
      (by decide) (by decide)

/-! ## Claim C4 -/

theorem trimPre_Is_append (e : String) : trimPre ("Is" ++ e) "Is" = e := by
  obtain ⟨l⟩ := e
  have hdata : (("Is" : String) ++ ⟨l⟩).data = 'I' :: 's' :: l := rfl
  unfold trimPre
  rw [hdata]
  have hpre : ("Is" : String).data.isPrefixOf ('I' :: 's' :: l) = true := by
    simp [List.isPrefixOf]
  rw [if_pos hpre]
  rfl

theorem Is_append_inj (a b : String) (h : "Is" ++ a = "Is" ++ b) : a = b := by
  have := congrArg (fun s => trimPre s "Is") h
  simpa [trimPre_Is_append] using this

theorem Is_append_of_startsWith (c : String) (h : strStartsWith c "Is" = true) :
    "Is" ++ trimPre c "Is" = c := by
  unfold strStartsWith at h
  obtain ⟨l⟩ := c
  cases l with
  | nil => simp [List.isPrefixOf] at h
  | cons x rest =>
    cases rest with
    | nil => simp [List.isPrefixOf] at h
    | cons y t =>
      simp only [List.isPrefixOf, Bool.and_eq_true, beq_iff_eq] at h
      obtain ⟨hx, hy, -⟩ := h
      subst hx
      subst hy
      show ("Is" : String) ++ trimPre ⟨'I' :: 's' :: t⟩ "Is" = ⟨'I' :: 's' :: t⟩
      unfold trimPre
      rw [if_pos (by simp [List.isPrefixOf])]
      rfl

theorem lookupA_eq_none {α : Type} (m : List (String × α)) (k : String) :
    lookupA m k = none ↔ ∀ kv ∈ m, kv.1 ≠ k := by
  unfold lookupA
  cases hf : m.find? (fun kv => kv.1 = k) with
  | none =>
    simp only [Option.map_none']
    constructor
    · intro _ kv hkv
      have := List.find?_eq_none.mp hf kv hkv
      simpa using this
    · intro _
      trivial
  | some kv =>
    simp only [Option.map_some']
    constructor
    · intro h
      cases h
    · intro h
      exfalso
      have hmem := List.mem_of_find?_eq_some hf
      have hp := List.find?_some hf
      exact h kv hmem (by simpa using hp)

theorem lookupA_eraseA_ne {α : Type} (m : List (String × α)) (k k' : String)
    (h : k ≠ k') : lookupA (eraseA m k') k = lookupA m k := by
  induction m with
  | nil => rfl
  | cons kv rest ih =>
    by_cases hk : kv.1 = k'
    · have : eraseA (kv :: rest) k' = eraseA rest k' := by
        simp [eraseA, List.filter_cons, hk]
      rw [this, ih]
      have hne : ¬kv.1 = k := fun hc => h (hc ▸ hk)
      simp [lookupA, List.find?_cons, hne]
    · have : eraseA (kv :: rest) k' = kv :: eraseA rest k' := by
        simp [eraseA, List.filter_cons, hk]
      rw [this]
      by_cases hk2 : kv.1 = k
      · simp [lookupA, List.find?_cons, hk2]
      · simp only [lookupA, List.find?_cons] at ih ⊢
        simp [hk2, ih, lookupA]

theorem mem_eraseA {α : Type} (m : List (String × α)) (k : String) (kv : String × α) :
    kv ∈ eraseA m k ↔ kv ∈ m ∧ kv.1 ≠ k := by
  unfold eraseA
  rw [List.mem_filter]
  simp

theorem eraseA_sublist {α : Type} (m : List (String × α)) (k : String) :
    (eraseA m k).Sublist m :=
  List.filter_sublist m

theorem countDiag_eq_zero_of_ne (ds : List Diag) (d : Diag)
    (h : ∀ d' ∈ ds, d' ≠ d) : countDiag ds d = 0 := by
  induction ds with
  | nil => rfl
  | cons d' ds ih =>
    have hd : d' ≠ d := h d' (List.mem_cons_self d' ds)
    have hrest : ∀ x ∈ ds, x ≠ d := fun x hx => h x (List.mem_cons_of_mem d' hx)
    have hstep : countDiag (d' :: ds) d = countDiag ds d := by
      simp [countDiag, List.filter_cons, hd]
    rw [hstep, ih hrest]

/-- Every diagnostic of the struct-reconciliation loop comes from one
recorded struct entry. -/
theorem mem_reconcileStructs_fst :
    ∀ (structs checkers : List (String × Reporter)) (d : Diag),
      d ∈ (reconcileStructs structs checkers).1 →
      ∃ ent ∈ structs, d = ⟨ent.2.pos, Msg.missingFunc ("Is" ++ ent.1)⟩
  | [], _, d, hd => absurd hd (by simp [reconcileStructs])
  | (e, rep) :: rest, checkers, d, hd => by
    simp only [reconcileStructs] at hd
    rcases List.mem_append.mp hd with h1 | h2
    · refine ⟨(e, rep), List.mem_cons_self _ _, ?_⟩
      revert h1
      split
      · intro h1; exact absurd h1 (by simp)
      · intro h1
        simpa using h1
    · obtain ⟨ent, hent, hd'⟩ :=
        mem_reconcileStructs_fst rest (eraseA checkers ("Is" ++ e)) d h2
      exact ⟨ent, List.mem_cons_of_mem _ hent, hd'⟩

/-- The struct-reconciliation loop leaves the checker map a sublist of
the original. -/
theorem reconcileStructs_snd_sublist :
    ∀ (structs checkers : List (String × Reporter)),
      (reconcileStructs structs checkers).2.Sublist checkers
  | [], checkers => by simp [reconcileStructs]
  | (e, rep) :: rest, checkers => by
    simp only [reconcileStructs]
    exact (reconcileStructs_snd_sublist rest (eraseA checkers ("Is" ++ e))).trans
      (eraseA_sublist checkers ("Is" ++ e))

/-- Membership in the checker map after the struct loop: original entries
whose key is not `Is`+<any recorded struct name>. -/
theorem mem_reconcileStructs_snd :
    ∀ (structs checkers : List (String × Reporter)) (kv : String × Reporter),
      kv ∈ (reconcileStructs structs checkers).2 ↔
        kv ∈ checkers ∧ ∀ ent ∈ structs, kv.1 ≠ "Is" ++ ent.1
  | [], checkers, kv => by simp [reconcileStructs]
  | (e, rep) :: rest, checkers, kv => by
    simp only [reconcileStructs]
    rw [mem_reconcileStructs_snd rest (eraseA checkers ("Is" ++ e)) kv, mem_eraseA]
    constructor
    · rintro ⟨⟨hmem, hne⟩, hrest⟩
      refine ⟨hmem, ?_⟩
      intro ent hent
      rcases List.mem_cons.mp hent with rfl | hent'
      · exact hne
      · exact hrest ent hent'
    · rintro ⟨hmem, hall⟩
      exact ⟨⟨hmem, hall (e, rep) (List.mem_cons_self _ _)⟩,
        fun ent hent => hall ent (List.mem_cons_of_mem _ hent)⟩

/-- Per-entry count of the struct-loop diagnostics: a recorded struct `e`
yields its "missing Is<e> function" diagnostic exactly when no checker
`Is`+`e` is recorded, and exactly once. -/
theorem countDiag_reconcileStructs :
    ∀ (structs checkers : List (String × Reporter)),
      (structs.map Prod.fst).Nodup →
      ∀ (e : String) (rep : Reporter), (e, rep) ∈ structs →
      countDiag (reconcileStructs structs checkers).1
          ⟨rep.pos, Msg.missingFunc ("Is" ++ e)⟩ =
        if lookupA checkers ("Is" ++ e) = none then 1 else 0
  | [], _, _, e, rep, hmem => absurd hmem (by simp)
  | (e0, rep0) :: rest, checkers, hnd, e, rep, hmem => by
    have hnd' : (rest.map Prod.fst).Nodup := (List.nodup_cons.mp hnd).2
    have hnotin : e0 ∉ rest.map Prod.fst := (List.nodup_cons.mp hnd).1
    simp only [reconcileStructs]
    rw [countDiag_append]
    rcases List.mem_cons.mp hmem with heq | hmem'
    · injection heq with he hrep
      subst he
      subst hrep
      have hz : countDiag
          (reconcileStructs rest (eraseA checkers ("Is" ++ e))).1
          ⟨rep.pos, Msg.missingFunc ("Is" ++ e)⟩ = 0 := by
        apply countDiag_eq_zero_of_ne
        intro d' hd'
        obtain ⟨ent, hent, hd''⟩ := mem_reconcileStructs_fst rest
          (eraseA checkers ("Is" ++ e)) d' hd'
        rw [hd'']
        intro hc
        have hmsg : Msg.missingFunc ("Is" ++ ent.1) = Msg.missingFunc ("Is" ++ e) :=
          congrArg Diag.msg hc
        have : ent.1 = e := Is_append_inj _ _ (by injection hmsg)
        exact hnotin (this ▸ List.mem_map_of_mem Prod.fst hent)
      rw [hz]
      cases hl : lookupA checkers ("Is" ++ e) with
      | none => simp [hl, countDiag]
      | some v => simp [hl, countDiag]
    · have hkey : e ∈ rest.map Prod.fst := List.mem_map_of_mem Prod.fst hmem'
      have hne : e ≠ e0 := fun hc => hnotin (hc ▸ hkey)
      have hz : countDiag
          (if (lookupA checkers ("Is" ++ e0)).isSome then []
           else [⟨rep0.pos, Msg.missingFunc ("Is" ++ e0)⟩])
          ⟨rep.pos, Msg.missingFunc ("Is" ++ e)⟩ = 0 := by
        apply countDiag_eq_zero_of_ne
        intro d' hd'
        revert hd'
        split
        · intro hd'; exact absurd hd' (by simp)
        · intro hd'
          simp only [List.mem_singleton] at hd'
          subst hd'
          intro hc
          have hmsg : Msg.missingFunc ("Is" ++ e0) = Msg.missingFunc ("Is" ++ e) :=
            congrArg Diag.msg hc
          exact hne (Is_append_inj _ _ (by injection hmsg)).symm
      rw [hz, countDiag_reconcileStructs rest (eraseA checkers ("Is" ++ e0)) hnd' e rep hmem',
        lookupA_eraseA_ne checkers _ _
          (fun hc => hne (Is_append_inj _ _ hc))]
      omega

/-- Per-entry count of the checker-loop diagnostics over an arbitrary
(post-struct-loop) checker list with distinct `Is`-prefixed keys. -/
theorem countDiag_reconcileCheckers :
    ∀ (cks structs : List (String × Reporter)),
      (∀ kv ∈ cks, strStartsWith kv.1 "Is" = true) →
      (cks.map Prod.fst).Nodup →
      ∀ (c : String) (rep : Reporter), strStartsWith c "Is" = true →
      countDiag (reconcileCheckers structs cks)
          ⟨rep.pos, Msg.missingStruct (trimPre c "Is")⟩ =
        if (c, rep) ∈ cks ∧ lookupA structs (trimPre c "Is") = none then 1 else 0
  | [], structs, _, _, c, rep, _ => by simp [reconcileCheckers, countDiag]
  | (c0, rep0) :: rest, structs, his, hnd, c, rep, hcIs => by
    have hnd' : (rest.map Prod.fst).Nodup := (List.nodup_cons.mp hnd).2
    have hnotin : c0 ∉ rest.map Prod.fst := (List.nodup_cons.mp hnd).1
    have his0 : strStartsWith c0 "Is" = true := his (c0, rep0) (List.mem_cons_self _ _)
    have his' : ∀ kv ∈ rest, strStartsWith kv.1 "Is" = true :=
      fun kv hkv => his kv (List.mem_cons_of_mem _ hkv)
    simp only [reconcileCheckers]
    rw [countDiag_append,
      countDiag_reconcileCheckers rest structs his' hnd' c rep hcIs]
    by_cases hceq : c = c0
    · subst hceq
      have hnotmem : (c, rep) ∉ rest := fun hmem =>
        hnotin (List.mem_map_of_mem Prod.fst hmem)
      by_cases hrep : rep = rep0
      · subst hrep
        by_cases hl : lookupA structs (trimPre c "Is") = none
        · have hih0 : (if (c, rep) ∈ rest ∧ lookupA structs (trimPre c "Is") = none
              then (1 : Nat) else 0) = 0 := if_neg (fun hco => hnotmem hco.1)
          have hrhs : (if (c, rep) ∈ (c, rep) :: rest ∧
              lookupA structs (trimPre c "Is") = none then (1 : Nat) else 0) = 1 :=
            if_pos ⟨List.mem_cons_self _ _, hl⟩
          rw [hih0, hrhs]
          simp [hl, countDiag]
        · have hih0 : (if (c, rep) ∈ rest ∧ lookupA structs (trimPre c "Is") = none
              then (1 : Nat) else 0) = 0 := if_neg (fun hco => hnotmem hco.1)
          have hrhs : (if (c, rep) ∈ (c, rep) :: rest ∧
              lookupA structs (trimPre c "Is") = none then (1 : Nat) else 0) = 0 :=
            if_neg (fun hco => hl hco.2)
          rw [hih0, hrhs]
          have hsome : (lookupA structs (trimPre c "Is")).isSome = true :=
            Option.ne_none_iff_isSome.mp hl
          simp [hsome, countDiag]
      · have hpos : rep.pos ≠ rep0.pos := by
          intro hp
          apply hrep
          cases rep
          cases rep0
          simpa using hp
        have hz : countDiag
            (if (lookupA structs (trimPre c "Is")).isSome then []
             else [⟨rep0.pos, Msg.missingStruct (trimPre c "Is")⟩])
            ⟨rep.pos, Msg.missingStruct (trimPre c "Is")⟩ = 0 := by
          apply countDiag_eq_zero_of_ne
          intro d' hd'
          revert hd'
          split
          · intro hd'; exact absurd hd' (by simp)
          · intro hd'
            simp only [List.mem_singleton] at hd'
            subst hd'
            intro hc
            exact hpos (congrArg Diag.pos hc).symm
        rw [hz, if_neg (fun hco => hnotmem hco.1),
          if_neg (fun hco => by
            rcases List.mem_cons.mp hco.1 with heq | hmem'
            · exact hrep (congrArg Prod.snd heq)
            · exact hnotmem hmem')]
    · have hne0 : c0 ≠ c := fun hc => hceq hc.symm
      have hstrip : trimPre c0 "Is" ≠ trimPre c "Is" := by
        intro hs
        apply hne0
        calc c0 = "Is" ++ trimPre c0 "Is" := (Is_append_of_startsWith c0 his0).symm
        _ = "Is" ++ trimPre c "Is" := by rw [hs]
        _ = c := Is_append_of_startsWith c hcIs
      have hz : countDiag
          (if (lookupA structs (trimPre c0 "Is")).isSome then []
           else [⟨rep0.pos, Msg.missingStruct (trimPre c0 "Is")⟩])
          ⟨rep.pos, Msg.missingStruct (trimPre c "Is")⟩ = 0 := by
        apply countDiag_eq_zero_of_ne
        intro d' hd'
        revert hd'
        split
        · intro hd'; exact absurd hd' (by simp)
        · intro hd'
          simp only [List.mem_singleton] at hd'
          subst hd'
          intro hc
          exact hstrip (by injection congrArg Diag.msg hc)
      rw [hz]
      by_cases hco : (c, rep) ∈ rest ∧ lookupA structs (trimPre c "Is") = none
      · rw [if_pos hco, if_pos ⟨List.mem_cons_of_mem _ hco.1, hco.2⟩]
      · rw [if_neg hco, if_neg (fun hco' => by
          rcases List.mem_cons.mp hco'.1 with heq | hmem'
          · exact hceq (congrArg Prod.fst heq)
          · exact hco ⟨hmem', hco'.2⟩)]

/-- CLAIM C4: after traversal, every recorded exported `...Error` struct
with no recorded `Is`+<name> checker yields exactly one "missing Is<name>
function" diagnostic at the struct's position (none when the checker
exists), and every recorded checker whose implied struct name (the `Is`
prefix stripped) was never recorded yields exactly one "missing <name>
struct" diagnostic at the checker's position (none when the struct
exists); matched pairs are consumed and neither side double-reported.
Stated over any analyzer state whose registries have (as traversal
guarantees) distinct keys and `Is`-prefixed checker keys. -/
theorem claim4_errorContract (st : AState)
    (hs : (st.errorStructMap.map Prod.fst).Nodup)
    (hc : (st.errorCheckerMap.map Prod.fst).Nodup)
    (his : ∀ kv ∈ st.errorCheckerMap, strStartsWith kv.1 "Is" = true) :
    (∀ e rep, (e, rep) ∈ st.errorStructMap →
      countDiag (reconcileErrors st).diags ⟨rep.pos, Msg.missingFunc ("Is" ++ e)⟩ =
        countDiag st.diags ⟨rep.pos, Msg.missingFunc ("Is" ++ e)⟩ +
        (if lookupA st.errorCheckerMap ("Is" ++ e) = none then 1 else 0)) ∧
    (∀ c rep, (c, rep) ∈ st.errorCheckerMap →
      countDiag (reconcileErrors st).diags ⟨rep.pos, Msg.missingStruct (trimPre c "Is")⟩ =
        countDiag st.diags ⟨rep.pos, Msg.missingStruct (trimPre c "Is")⟩ +
        (if lookupA st.errorStructMap (trimPre c "Is") = none then 1 else 0)) := by
  have hdiags : (reconcileErrors st).diags =
      st.diags ++ (reconcileStructs st.errorStructMap st.errorCheckerMap).1 ++
        reconcileCheckers st.errorStructMap
          (reconcileStructs st.errorStructMap st.errorCheckerMap).2 := rfl
  constructor
  · intro e rep hmem
    rw [hdiags, countDiag_append, countDiag_append,
      countDiag_reconcileStructs st.errorStructMap st.errorCheckerMap hs e rep hmem]
    have hz : countDiag (reconcileCheckers st.errorStructMap
        (reconcileStructs st.errorStructMap st.errorCheckerMap).2)
        ⟨rep.pos, Msg.missingFunc ("Is" ++ e)⟩ = 0 := by
      apply countDiag_eq_zero_of_ne
      intro d hd
      obtain ⟨s, hshape⟩ := reconcileCheckers_shape _ _ d hd
      intro hcEq
      rw [hcEq] at hshape
      simp at hshape
    rw [hz]
    omega
  · intro c rep hmem
    have hcIs := his (c, rep) hmem
    rw [hdiags, countDiag_append, countDiag_append]
    have hz1 : countDiag (reconcileStructs st.errorStructMap st.errorCheckerMap).1
        ⟨rep.pos, Msg.missingStruct (trimPre c "Is")⟩ = 0 := by
      apply countDiag_eq_zero_of_ne
      intro d hd
      obtain ⟨s, hshape⟩ := reconcileStructs_shape _ _ d hd
      intro hcEq
      rw [hcEq] at hshape
      simp at hshape
    have hnd2 : ((reconcileStructs st.errorStructMap st.errorCheckerMap).2.map
        Prod.fst).Nodup :=
      List.Nodup.sublist
        (List.Sublist.map Prod.fst
          (reconcileStructs_snd_sublist st.errorStructMap st.errorCheckerMap)) hc
    have his2 : ∀ kv ∈ (reconcileStructs st.errorStructMap st.errorCheckerMap).2,
        strStartsWith kv.1 "Is" = true := fun kv hkv =>
      his kv ((mem_reconcileStructs_snd _ _ kv).mp hkv).1
    rw [countDiag_reconcileCheckers _ st.errorStructMap his2 hnd2 c rep hcIs, hz1]
    by_cases hl : lookupA st.errorStructMap (trimPre c "Is") = none
    · have hmem2 : (c, rep) ∈ (reconcileStructs st.errorStructMap st.errorCheckerMap).2 := by
        apply (mem_reconcileStructs_snd _ _ _).mpr
        refine ⟨hmem, ?_⟩
        intro ent hent hceq
        have hceq' : c = "Is" ++ ent.1 := hceq
        have hstrip : trimPre c "Is" = ent.1 := by rw [hceq', trimPre_Is_append]
        have hlook : lookupA st.errorStructMap ent.1 ≠ none := by
          intro hn
          exact ((lookupA_eq_none _ _).mp hn) ent hent rfl
        exact hlook (hstrip ▸ hl)
      rw [if_pos ⟨hmem2, hl⟩, if_pos hl]
    · rw [if_neg (fun hco => hl hco.2), if_neg hl]

/-- A post-traversal state: structs `ParseError` (pos 10, no checker) and
`FooError` (pos 11, checker present); checkers `IsFooError` (pos 20,
matched) and `IsBarError` (pos 21, no struct). -/
def c4St : AState :=
  ⟨[], [("ParseError", ⟨10⟩), ("FooError", ⟨11⟩)],
    [("IsFooError", ⟨20⟩), ("IsBarError", ⟨21⟩)], []⟩

/-- Witness for C4 on `c4St`: exactly one "missing IsParseError function"
at 10, no diagnostic for the matched `FooError`/`IsFooError` pair, and
exactly one "missing BarError struct" at 21. -/
theorem claim4_witness :
    countDiag (reconcileErrors c4St).diags ⟨10, Msg.missingFunc "IsParseError"⟩ = 1 ∧
    countDiag (reconcileErrors c4St).diags ⟨11, Msg.missingFunc "IsFooError"⟩ = 0 ∧
    countDiag (reconcileErrors c4St).diags ⟨21, Msg.missingStruct "BarError"⟩ = 1 := by
  have h := claim4_errorContract c4St (by decide) (by decide) (by decide)
  refine ⟨?_, ?_, ?_⟩
  · exact (h.1 "ParseError" ⟨10⟩ (by decide)).trans (by decide)
  · exact (h.1 "FooError" ⟨11⟩ (by decide)).trans (by decide)
  · exact (h.2 "IsBarError" ⟨21⟩ (by decide)).trans (by decide)

/-! ## Claim C5 -/

/-- CLAIM-SIDE for C5: the fixed opposite-verb table
Request↔Reply, Send↔Receive, Publish↔Subscribe. -/
def claimOpposite : String → String
  | "Request" => "Reply"
  | "Reply" => "Request"
  | "Send" => "Receive"
  | "Receive" => "Send"
  | "Publish" => "Subscribe"
  | "Subscribe" => "Publish"
  | v => v

/-- Traversal invariant: every populated first half was written by the
`Request`/`Send`/`Publish` cases. -/
def firstNamesOk (m : List (String × Pair)) : Bool :=
  m.all (fun kp =>
    match kp.2.first with
    | some fe => fe.name == "Request" || fe.name == "Send" || fe.name == "Publish"
    | none => true)

/-- Traversal invariant: every populated second half was written by the
`Reply`/`Receive`/`Subscribe` cases. -/
def secondNamesOk (m : List (String × Pair)) : Bool :=
  m.all (fun kp =>
    match kp.2.second with
    | some se => se.name == "Reply" || se.name == "Receive" || se.name == "Subscribe"
    | none => true)

/-- CLAIM C5: at reconciliation a "missing <opposite> function"
diagnostic is emitted if and only if exactly one half of an
operation-pair entry is populated; it is reported at the present half's
position with the opposite verb resolved by the fixed table
Request↔Reply, Send↔Receive, Publish↔Subscribe; and each entry (keyed by
enclosing file identifier and verb-stripped base name) contributes
independently, so pairs for distinct base names never interfere. -/
theorem claim5_pairReconcile (st : AState)
    (hf : firstNamesOk st.a2b = true) (hs : secondNamesOk st.a2b = true) :
    (reconcilePairs st).diags =
      st.diags ++ st.a2b.flatMap (fun kp =>
        match kp.2.first, kp.2.second with
        | some fe, none => [⟨fe.reporter.pos, Msg.missingFunc (claimOpposite fe.name)⟩]
        | none, some se => [⟨se.reporter.pos, Msg.missingFunc (claimOpposite se.name)⟩]
        | _, _ => []) := by
  have hlist : ∀ m : List (String × Pair), firstNamesOk m = true → secondNamesOk m = true →
      reconcilePairList m = m.flatMap (fun kp =>
        match kp.2.first, kp.2.second with
        | some fe, none => [⟨fe.reporter.pos, Msg.missingFunc (claimOpposite fe.name)⟩]
        | none, some se => [⟨se.reporter.pos, Msg.missingFunc (claimOpposite se.name)⟩]
        | _, _ => []) := by
    intro m
    induction m with
    | nil => intro _ _; rfl
    | cons kp rest ih =>
      intro hf1 hs1
      simp only [firstNamesOk, secondNamesOk, List.all_cons, Bool.and_eq_true] at hf1 hs1
      obtain ⟨hfh, hft⟩ := hf1
      obtain ⟨hsh, hst⟩ := hs1
      obtain ⟨k, p⟩ := kp
      rw [List.flatMap_cons, reconcilePairList, ih hft hst]
      congr 1
      cases hpf : p.first with
      | none =>
        cases hps : p.second with
        | none => simp [hpf, hps]
        | some se =>
          rw [hps] at hsh
          simp only [Bool.or_eq_true, beq_iff_eq] at hsh
          simp only [hpf, hps]
          obtain ⟨sename, serep⟩ := se
          rcases hsh with (h | h) | h <;> (dsimp only at h; subst h; rfl)
      | some fe =>
        cases hps : p.second with
        | none =>
          rw [hpf] at hfh
          simp only [Bool.or_eq_true, beq_iff_eq] at hfh
          simp only [hpf, hps]
          obtain ⟨fename, ferep⟩ := fe
          rcases hfh with (h | h) | h <;> (dsimp only at h; subst h; rfl)
        | some se => simp [hpf, hps]
  rw [reconcilePairs, hlist st.a2b hf hs]

/-- A post-traversal state with four pair entries: `RequestUser` alone,
`SendOrder` alone, a matched Publish/Subscribe pair, and `ReceiveItem`
alone. -/
def c5St : AState :=
  ⟨[("a.User", ⟨some ⟨"Request", ⟨1⟩⟩, none⟩),
    ("a.Order", ⟨some ⟨"Send", ⟨2⟩⟩, none⟩),
    ("a.Evt", ⟨some ⟨"Publish", ⟨3⟩⟩, some ⟨"Subscribe", ⟨4⟩⟩⟩),
    ("a.Item", ⟨none, some ⟨"Receive", ⟨5⟩⟩⟩)], [], [], []⟩

/-- Witness for C5 on `c5St`: the two lone first halves and the lone
second half each yield their opposite-verb diagnostic at their own
position; the matched pair yields nothing; distinct base names do not
interfere. -/
theorem claim5_witness :
    (reconcilePairs c5St).diags =
      [⟨1, Msg.missingFunc "Reply"⟩, ⟨2, Msg.missingFunc "Receive"⟩,
       ⟨5, Msg.missingFunc "Send"⟩] :=
  (claim5_pairReconcile c5St (by decide) (by decide)).trans (by decide)

/-! ## Claim C7 -/

theorem mem_insertA {α : Type} (m : List (String × α)) (k : String) (v : α)
    (kv : String × α) (h : kv ∈ insertA m k v) : kv ∈ m ∨ kv = (k, v) := by
  induction m with
  | nil =>
    simp only [insertA, List.mem_singleton] at h
    exact Or.inr h
  | cons kv0 rest ih =>
    simp only [insertA] at h
    revert h
    split
    · intro h
      rcases List.mem_cons.mp h with heq | hmem
      · exact Or.inr heq
      · exact Or.inl (List.mem_cons_of_mem _ hmem)
    · intro h
      rcases List.mem_cons.mp h with heq | hmem
      · exact Or.inl (heq ▸ List.mem_cons_self _ _)
      · rcases ih hmem with h1 | h2
        · exact Or.inl (List.mem_cons_of_mem _ h1)
        · exact Or.inr h2

theorem insertA_lookup_self {α : Type} (m : List (String × α)) (k : String) (v : α)
    (h : lookupA m k = some v) : insertA m k v = m := by
  induction m with
  | nil => simp [lookupA] at h
  | cons kv0 rest ih =>
    by_cases hk : kv0.1 = k
    · have hv : kv0.2 = v := by
        simp only [lookupA, List.find?_cons, hk] at h
        simpa using h
      simp only [insertA, if_pos hk]
      rw [← hk, ← hv]
    · have h' : lookupA rest k = some v := by
        simp only [lookupA, List.find?_cons] at h ⊢
        simpa [hk] using h
      simp only [insertA, if_neg hk]
      rw [ih h']

theorem insertA_of_lookup_none {α : Type} (m : List (String × α)) (k : String) (v : α)
    (h : lookupA m k = none) : insertA m k v = m ++ [(k, v)] := by
  induction m with
  | nil => rfl
  | cons kv0 rest ih =>
    by_cases hk : kv0.1 = k
    · exfalso
      exact ((lookupA_eq_none _ _).mp h) kv0 (List.mem_cons_self _ _) hk
    · have h' : lookupA rest k = none := by
        apply (lookupA_eq_none _ _).mpr
        intro kv hkv
        exact ((lookupA_eq_none _ _).mp h) kv (List.mem_cons_of_mem _ hkv)
      simp only [insertA, if_neg hk]
      rw [ih h', List.cons_append]

theorem reconcilePairList_append (m₁ m₂ : List (String × Pair)) :
    reconcilePairList (m₁ ++ m₂) = reconcilePairList m₁ ++ reconcilePairList m₂ := by
  induction m₁ with
  | nil => rfl
  | cons kp rest ih =>
    obtain ⟨k, p⟩ := kp
    rw [List.cons_append, reconcilePairList, reconcilePairList, ih, List.append_assoc]

theorem lookupA_mem {α : Type} (m : List (String × α)) (k : String) (v : α)
    (h : lookupA m k = some v) : (k, v) ∈ m := by
  unfold lookupA at h
  cases hf : m.find? (fun kv => kv.1 = k) with
  | none => rw [hf] at h; cases h
  | some kv =>
    rw [hf] at h
    simp only [Option.map_some', Option.some.injEq] at h
    have hmem := List.mem_of_find?_eq_some hf
    have hk : kv.1 = k := by simpa using List.find?_some hf
    have heq : kv = (k, v) := by
      obtain ⟨k0, v0⟩ := kv
      simp only at hk h
      rw [hk, h]
    exact heq ▸ hmem

theorem startsWith_Set_shape (s : String) (h : strStartsWith s "Set" = true) :
    ∃ t, s.data = 'S' :: 'e' :: 't' :: t := by
  unfold strStartsWith at h
  obtain ⟨l⟩ := s
  cases l with
  | nil => simp [List.isPrefixOf] at h
  | cons x r =>
    cases r with
    | nil => simp [List.isPrefixOf] at h
    | cons y r2 =>
      cases r2 with
      | nil => simp [List.isPrefixOf] at h
      | cons z t =>
        simp only [List.isPrefixOf, Bool.and_eq_true, beq_iff_eq] at h
        obtain ⟨hx, hy, hz, -⟩ := h
        subst hx
        subst hy
        subst hz
        exact ⟨t, rfl⟩

theorem startsWith_Get_shape (s : String) (h : strStartsWith s "Get" = true) :
    ∃ t, s.data = 'G' :: 'e' :: 't' :: t := by
  unfold strStartsWith at h
  obtain ⟨l⟩ := s
  cases l with
  | nil => simp [List.isPrefixOf] at h
  | cons x r =>
    cases r with
    | nil => simp [List.isPrefixOf] at h
    | cons y r2 =>
      cases r2 with
      | nil => simp [List.isPrefixOf] at h
      | cons z t =>
        simp only [List.isPrefixOf, Bool.and_eq_true, beq_iff_eq] at h
        obtain ⟨hx, hy, hz, -⟩ := h
        subst hx
        subst hy
        subst hz
        exact ⟨t, rfl⟩

/-- CLAIM C7: a function whose name begins with `Set` or `Get` is never
forward-detected by the operation-pair registration: processing it leaves
every pair either as it was or as the inert empty pair (it populates
neither half), and the deferred operation-pair diagnostics of the
registry are unchanged — Set/Get pairing never triggers a report. -/
theorem claim7_setGet (fn : String) (fd : FuncDecl) (st : AState)
    (h : strStartsWith fd.name "Set" = true ∨ strStartsWith fd.name "Get" = true) :
    (∀ k p, (k, p) ∈ (funcDeclRegistry fn fd st).a2b →
        (k, p) ∈ st.a2b ∨ p = ⟨none, none⟩) ∧
    reconcilePairList (funcDeclRegistry fn fd st).a2b =
      reconcilePairList st.a2b := by
  have hmain : (funcDeclRegistry fn fd st).a2b =
      insertA st.a2b (fn ++ "." ++ fd.name)
        ((lookupA st.a2b (fn ++ "." ++ fd.name)).getD ⟨none, none⟩) := by
    rcases h with hset | hget
    · obtain ⟨t, hdata⟩ := startsWith_Set_shape fd.name hset
      have eIs : ("Is" : String).data.isPrefixOf fd.name.data = false := by
        rw [hdata]; rfl
      have eNew : ("New" : String).data.isPrefixOf fd.name.data = false := by
        rw [hdata]; rfl
      have eReq : ("Request" : String).data.isPrefixOf fd.name.data = false := by
        rw [hdata]; rfl
      have eRep : ("Reply" : String).data.isPrefixOf fd.name.data = false := by
        rw [hdata]; rfl
      have eSend : ("Send" : String).data.isPrefixOf fd.name.data = false := by
        rw [hdata]; rfl
      have eRecv : ("Receive" : String).data.isPrefixOf fd.name.data = false := by
        rw [hdata]; rfl
      have ePub : ("Publish" : String).data.isPrefixOf fd.name.data = false := by
        rw [hdata]; rfl
      have eSub : ("Subscribe" : String).data.isPrefixOf fd.name.data = false := by
        rw [hdata]; rfl
      unfold funcDeclRegistry pairRegister isCheckerName strStartsWith trimPre
      simp [eIs, eNew, eReq, eRep, eSend, eRecv, ePub, eSub]
    · obtain ⟨t, hdata⟩ := startsWith_Get_shape fd.name hget
      have eIs : ("Is" : String).data.isPrefixOf fd.name.data = false := by
        rw [hdata]; rfl
      have eNew : ("New" : String).data.isPrefixOf fd.name.data = false := by
        rw [hdata]; rfl
      have eReq : ("Request" : String).data.isPrefixOf fd.name.data = false := by
        rw [hdata]; rfl
      have eRep : ("Reply" : String).data.isPrefixOf fd.name.data = false := by
        rw [hdata]; rfl
      have eSend : ("Send" : String).data.isPrefixOf fd.name.data = false := by
        rw [hdata]; rfl
      have eRecv : ("Receive" : String).data.isPrefixOf fd.name.data = false := by
        rw [hdata]; rfl
      have ePub : ("Publish" : String).data.isPrefixOf fd.name.data = false := by
        rw [hdata]; rfl
      have eSub : ("Subscribe" : String).data.isPrefixOf fd.name.data = false := by
        rw [hdata]; rfl
      unfold funcDeclRegistry pairRegister isCheckerName strStartsWith trimPre
      simp [eIs, eNew, eReq, eRep, eSend, eRecv, ePub, eSub]
  constructor
  · intro k p hmem
    rw [hmain] at hmem
    rcases mem_insertA _ _ _ _ hmem with hold | hnew
    · exact Or.inl hold
    · cases hl : lookupA st.a2b (fn ++ "." ++ fd.name) with
      | some p0 =>
        left
        have hp : p = p0 := by
          have := congrArg Prod.snd hnew
          simpa [hl] using this
        have hk : k = fn ++ "." ++ fd.name := congrArg Prod.fst hnew
        rw [hp, hk]
        exact lookupA_mem _ _ _ hl
      | none =>
        right
        have := congrArg Prod.snd hnew
        simpa [hl] using this
  · rw [hmain]
    cases hl : lookupA st.a2b (fn ++ "." ++ fd.name) with
    | some p0 =>
      rw [insertA_lookup_self _ _ _ (by rw [hl]; rfl)]
    | none =>
      rw [insertA_of_lookup_none _ _ _ (by rw [hl]),
        reconcilePairList_append]
      simp [reconcilePairList]

/-- A function `SetName` processed against a registry already holding a
lone `RequestUser` entry. -/
def c7St : AState := ⟨[("a.User", ⟨some ⟨"Request", ⟨1⟩⟩, none⟩)], [], [], []⟩

/-- The `SetName` function declaration. -/
def c7Fd : FuncDecl := ⟨"SetName", 7, [], none, some .snil⟩

/-- Witness for C7: processing `SetName` leaves the operation-pair
diagnostics unchanged. -/
theorem claim7_witness :
    reconcilePairList (funcDeclRegistry "a" c7Fd c7St).a2b =
      reconcilePairList c7St.a2b :=
  (claim7_setGet "a" c7Fd c7St (Or.inl (by decide))).2

/-! ## Claim C10 -/

theorem splitCharList_ne_nil : ∀ cs : List Char, splitCharList cs ≠ []
  | [] => by simp [splitCharList]
  | c :: cs => by
    simp only [splitCharList]
    split
    · simp
    · split <;> simp

/-- Appending one character to the input appends it to the last segment
of the split. -/
def appendLastStr (c : Char) : List String → List String
  | [] => []
  | [s] => [String.mk (s.data ++ [c])]
  | s :: rest => s :: appendLastStr c rest

theorem appendLastStr_length (c : Char) : ∀ l : List String,
    (appendLastStr c l).length = l.length
  | [] => rfl
  | [s] => rfl
  | s :: s2 :: rest => by
    have := appendLastStr_length c (s2 :: rest)
    simp [appendLastStr, this]

theorem splitCharList_cons_slash (cs : List Char) :
    splitCharList ('/' :: cs) = "" :: splitCharList cs := by
  simp [splitCharList]

theorem splitCharList_cons_ne (x : Char) (cs : List Char) (hx : x ≠ '/')
    (r : String) (rs : List String) (h : splitCharList cs = r :: rs) :
    splitCharList (x :: cs) = String.mk (x :: r.data) :: rs := by
  simp [splitCharList, hx, h]

theorem splitCharList_append_last (c : Char) (hc : c ≠ '/') :
    ∀ xs : List Char, splitCharList (xs ++ [c]) = appendLastStr c (splitCharList xs)
  | [] => by
    simp only [List.nil_append, splitCharList]
    rw [if_neg hc]
    rfl
  | x :: xs => by
    have ih := splitCharList_append_last c hc xs
    obtain ⟨r, rs, hsplit⟩ : ∃ r rs, splitCharList xs = r :: rs := by
      cases hs : splitCharList xs with
      | nil => exact absurd hs (splitCharList_ne_nil xs)
      | cons r rs => exact ⟨r, rs, rfl⟩
    by_cases hx : x = '/'
    · subst hx
      rw [List.cons_append, splitCharList_cons_slash, splitCharList_cons_slash, ih, hsplit]
      rfl
    · rw [hsplit] at ih
      cases rs with
      | nil =>
        rw [List.cons_append,
          splitCharList_cons_ne x (xs ++ [c]) hx (String.mk (r.data ++ [c])) []
            (by rw [ih]; rfl),
          splitCharList_cons_ne x xs hx r [] hsplit]
        rfl
      | cons r2 rs2 =>
        rw [List.cons_append,
          splitCharList_cons_ne x (xs ++ [c]) hx r (appendLastStr c (r2 :: rs2))
            (by rw [ih]; rfl),
          splitCharList_cons_ne x xs hx r (r2 :: rs2) hsplit]
        rfl

theorem forbiddenTable_none (g ig : String) (h1 : ig ≠ "internal")
    (h2 : ig ≠ "cmd") (h3 : ig ≠ "lib") : forbiddenTable g ig = none := by
  unfold forbiddenTable
  split_ifs <;> simp_all

/-- CLAIM C10: the layering checker classifies an import from its quoted
source literal (`imp.Path.Value`, quotes included).  For every import
whose unquoted path has exactly two segments, the derived import group
begins with a quote character and never equals any recognized group, so
no forbidden-group layering diagnostic is ever emitted for such an
imported path; only the banned-import-path rule (`unquoteLit`) unquotes the
literal. -/
theorem claim10_quotedClassification (pkgPath : String) (imp : ImportSpec)
    (mid : List Char)
    (hpath : imp.pathValue.data = '"' :: (mid ++ ['"']))
    (h2 : (splitCharList mid).length = 2) :
    unquoteLit imp.pathValue = some (String.mk mid) ∧
    (splitPackagePath imp.pathValue).1.data.head? = some '"' ∧
    (splitPackagePath imp.pathValue).1 ∉
      (["lib", "internal", "cmd", "model", "gen"] : List String) ∧
    countMsg (legalityDiags1 (splitPackagePath pkgPath).1 imp) Msg.noImportInternal = 0 ∧
    countMsg (legalityDiags1 (splitPackagePath pkgPath).1 imp) Msg.noImportCommand = 0 ∧
    countMsg (legalityDiags1 (splitPackagePath pkgPath).1 imp) Msg.noImportLibrary = 0 := by
  obtain ⟨a, b, hsab⟩ : ∃ a b, splitCharList mid = [a, b] := by
    cases hs : splitCharList mid with
    | nil => exact absurd hs (splitCharList_ne_nil mid)
    | cons r rs =>
      cases rs with
      | nil => rw [hs] at h2; simp at h2
      | cons r2 rs2 =>
        cases rs2 with
        | nil => exact ⟨r, r2, rfl⟩
        | cons r3 rs3 => rw [hs] at h2; simp at h2
  have hmidq : splitCharList (mid ++ ['"']) = [a, String.mk (b.data ++ ['"'])] := by
    rw [splitCharList_append_last '"' (by decide) mid, hsab]
    rfl
  have hsplitAll : splitCharList imp.pathValue.data =
      [String.mk ('"' :: a.data), String.mk (b.data ++ ['"'])] := by
    rw [hpath, splitCharList_cons_ne '"' (mid ++ ['"']) (by decide) a
      [String.mk (b.data ++ ['"'])] hmidq]
  have hgroup : (splitPackagePath imp.pathValue).1 = String.mk ('"' :: a.data) := by
    unfold splitPackagePath goSplitSlash
    rw [hsplitAll]
  have hcontr : ∀ (t : String) (c0 : Char) (ts : List Char),
      t.data = c0 :: ts → c0 ≠ '"' → String.mk ('"' :: a.data) ≠ t := by
    intro t c0 ts hdata hc0 hc
    have hd := congrArg String.data hc
    rw [hdata] at hd
    simp only [List.cons.injEq] at hd
    exact hc0 hd.1.symm
  have hni : (splitPackagePath imp.pathValue).1 ≠ "internal" := by
    rw [hgroup]
    exact hcontr "internal" 'i' ['n', 't', 'e', 'r', 'n', 'a', 'l'] rfl (by decide)
  have hnc : (splitPackagePath imp.pathValue).1 ≠ "cmd" := by
    rw [hgroup]
    exact hcontr "cmd" 'c' ['m', 'd'] rfl (by decide)
  have hnl : (splitPackagePath imp.pathValue).1 ≠ "lib" := by
    rw [hgroup]
    exact hcontr "lib" 'l' ['i', 'b'] rfl (by decide)
  refine ⟨?_, ?_, ?_, ?_, ?_, ?_⟩
  · unfold unquoteLit
    rw [hpath]
    simp
  · rw [hgroup]
    rfl
  · intro hmem
    simp only [List.mem_cons, List.not_mem_nil, or_false] at hmem
    rw [hgroup] at hmem
    rcases hmem with h | h | h | h | h
    · exact hcontr "lib" 'l' ['i', 'b'] rfl (by decide) h
    · exact hcontr "internal" 'i' ['n', 't', 'e', 'r', 'n', 'a', 'l'] rfl (by decide) h
    · exact hcontr "cmd" 'c' ['m', 'd'] rfl (by decide) h
    · exact hcontr "model" 'm' ['o', 'd', 'e', 'l'] rfl (by decide) h
    · exact hcontr "gen" 'g' ['e', 'n'] rfl (by decide) h
  · rw [countMsg_legalityDiags1_table _ _ _ (Or.inl rfl),
      forbiddenTable_none _ _ hni hnc hnl]
    rfl
  · rw [countMsg_legalityDiags1_table _ _ _ (Or.inr (Or.inl rfl)),
      forbiddenTable_none _ _ hni hnc hnl]
    rfl
  · rw [countMsg_legalityDiags1_table _ _ _ (Or.inr (Or.inr rfl)),
      forbiddenTable_none _ _ hni hnc hnl]
    rfl

/-- The two-segment import `io/ioutil` as it appears in an import
declaration: quoted. -/
def c10Imp : ImportSpec := ⟨"\"io/ioutil\"", 100⟩

/-- Witness for C10 on the quoted literal `"io/ioutil"` against a `lib`
file: the unquote used by the banned-import rule recovers `io/ioutil`,
while the layering classifier's group starts with a quote, matches no
recognized group, and yields no layering diagnostic. -/
theorem claim10_witness :
    unquoteLit c10Imp.pathValue = some (String.mk ("io/ioutil").data) ∧
    (splitPackagePath c10Imp.pathValue).1.data.head? = some '"' ∧
    (splitPackagePath c10Imp.pathValue).1 ∉
      (["lib", "internal", "cmd", "model", "gen"] : List String) ∧
    countMsg (legalityDiags1 (splitPackagePath "m/lib/a").1 c10Imp)
      Msg.noImportInternal = 0 ∧
    countMsg (legalityDiags1 (splitPackagePath "m/lib/a").1 c10Imp)
      Msg.noImportCommand = 0 ∧
    countMsg (legalityDiags1 (splitPackagePath "m/lib/a").1 c10Imp)
      Msg.noImportLibrary = 0 :=
  claim10_quotedClassification "m/lib/a" c10Imp ("io/ioutil").data
    (by decide) (by decide)
